import Mathlib

/-!
Verification of the task-graph build engine "pake" against its Python sources
(`pake/pake.py`, `pake/make.py`, `pake/subpake.py`, `pake/program.py`).

Modelling conventions:

* File modification times (`os.path.getmtime`) are exact rationals; the
  filesystem is a finite association list from path to mtime.  A path is a
  file iff it is a key of that list and is non-empty (`os.path.isfile("")`
  is false for every real filesystem).
* Python exceptions raised by the change detector are an `Except` error:
  `ValueError` ("Must have > 0 outputs ...") is `DetectErr.missingOutputs`,
  `FileNotFoundError` ("Input file ... does not exist.") is
  `DetectErr.inputNotFound`.
* `Pake._change_detect` is translated branch by branch.  In the
  mismatched-length branch Python accumulates outdated paths into `set()`
  objects whose iteration order is unspecified; the model fixes input-list
  and output-list order, preserving membership.
-/

/-- A filesystem: association list from path to modification time. -/
def FS : Type := List (String × ℚ)

/-- `os.path.isfile`: the path is non-empty and present in the filesystem. -/
def fsIsFile (fs : FS) (p : String) : Bool :=
  decide (p ≠ "") && (List.lookup p fs).isSome

/-- `os.path.getmtime`; in the source it is only called on existing files,
so the default value for a missing path is never observable. -/
def fsMtime (fs : FS) (p : String) : ℚ :=
  (List.lookup p fs).getD 0

/-- Errors raised by `Pake._change_detect` (pake/pake.py lines 432-482):
`ValueError` for inputs without outputs, `FileNotFoundError` for a missing
input file. -/
inductive DetectErr where
  | missingOutputs
  | inputNotFound
deriving DecidableEq, Repr

/-- The element-wise outdatedness test of `Pake._change_detect`:
`not path.isfile(op) or path.getmtime(op) < path.getmtime(ip)`. -/
def outdatedPair (fs : FS) (ip op : String) : Bool :=
  !fsIsFile fs op || decide (fsMtime fs op < fsMtime fs ip)

/-- The equal-length branch of `Pake._change_detect` (pake/pake.py lines
462-470): iterate over `zip(i, o)`; a missing input raises, an outdated pair
is appended to both result lists in iteration order. -/
def detectPairs (fs : FS) : List (String × String) →
    Except DetectErr (List String × List String)
  | [] => .ok ([], [])
  | (ip, op) :: rest =>
    if fsIsFile fs ip then
      match detectPairs fs rest with
      | .error e => .error e
      | .ok (ri, ro) =>
        if outdatedPair fs ip op then .ok (ip :: ri, op :: ro) else .ok (ri, ro)
    else
      .error .inputNotFound

/-- Input-existence loop shared by the mismatched-length branch of
`Pake._change_detect` (pake/pake.py lines 451-453): the first missing input
raises `FileNotFoundError`. -/
def checkInputsExist (fs : FS) : List String → Except DetectErr Unit
  | [] => .ok ()
  | ip :: rest =>
    if fsIsFile fs ip then checkInputsExist fs rest else .error .inputNotFound

/-- The mismatched-length branch of `Pake._change_detect` (pake/pake.py lines
447-460): every input is checked for existence; an input is outdated iff some
output is missing or older than it, an output is outdated iff it is missing
or older than some input.  Python collects both sides into `set()` objects
(unspecified iteration order, deduplicated); the model emits the outdated
inputs in input-list order and the outdated outputs in output-list order. -/
def detectCartesian (fs : FS) (i o : List String) :
    Except DetectErr (List String × List String) :=
  match checkInputsExist fs i with
  | .error e => .error e
  | .ok _ =>
    .ok (i.filter (fun ip => o.any (fun op => outdatedPair fs ip op)),
         o.filter (fun op => i.any (fun ip => outdatedPair fs ip op)))

/-- The input loop of the single-output branch of `Pake._change_detect`
(pake/pake.py lines 480-485), reached only when the single output exists:
a missing input raises; an input strictly newer than the output is
collected. -/
def detectSingleLoop (fs : FS) (op : String) : List String →
    Except DetectErr (List String)
  | [] => .ok []
  | ip :: rest =>
    if fsIsFile fs ip then
      match detectSingleLoop fs op rest with
      | .error e => .error e
      | .ok ri =>
        if decide (fsMtime fs op < fsMtime fs ip) then .ok (ip :: ri) else .ok ri
    else
      .error .inputNotFound

/-- The single-output branch of `Pake._change_detect` (pake/pake.py lines
472-488).  If the output is missing, all inputs and the output are returned
as outdated without any input-existence check.  Otherwise the inputs are
scanned; the Python variable `outdated_output` is `None` or the output path,
and the final `if outdated_output:` is Python truthiness (non-`None` and
non-empty string). -/
def detectSingle (fs : FS) (i : List String) (op : String) :
    Except DetectErr (List String × List String) :=
  if fsIsFile fs op then
    match detectSingleLoop fs op i with
    | .error e => .error e
    | .ok ri => .ok (ri, if ri ≠ [] ∧ op ≠ "" then [op] else [])
  else
    .ok (i, [op])

/-- `Pake._change_detect` (pake/pake.py lines 427-490), branch for branch. -/
def changeDetect (fs : FS) (i o : List String) :
    Except DetectErr (List String × List String) :=
  if 0 < i.length ∧ o.length = 0 then .error .missingOutputs
  else if i.length = 0 ∧ o.length = 0 then .ok ([], [])
  else if 1 < o.length then
    if i.length = 0 then .ok ([], o.filter (fun op => !fsIsFile fs op))
    else if o.length ≠ i.length then detectCartesian fs i o
    else detectPairs fs (i.zip o)
  else
    match o with
    | op :: _ => detectSingle fs i op
    | [] => .ok ([], [])

/-- The per-execution context fields set by the task wrapper, plus whether
the task body was invoked. -/
structure TaskStepResult where
  inputs : List String
  outputs : List String
  outdated_inputs : List String
  outdated_outputs : List String
  ran : Bool
deriving DecidableEq, Repr

/-- The inner wrapper installed by `Pake.task` (pake/pake.py lines 599-615):
run change detection over the realized inputs/outputs, record them on the
context, and invoke the body unless the task declares files and both
outdated sets are empty. -/
def taskStep (fs : FS) (i o : List String) : Except DetectErr TaskStepResult :=
  match changeDetect fs i o with
  | .error e => .error e
  | .ok (oi, oo) =>
    .ok { inputs := i, outputs := o, outdated_inputs := oi, outdated_outputs := oo,
          ran := if 0 < i.length ∨ 0 < o.length
                 then decide (0 < oi.length) || decide (0 < oo.length)
                 else true }

/-- The outdated index pairs of an equal-length paired-IO task: the pairs of
`zip i o` whose output is missing or older than its input. -/
def outdatedPairs (fs : FS) (i o : List String) : List (String × String) :=
  (i.zip o).filter (fun p => outdatedPair fs p.1 p.2)

/-- The legacy engine comparator `Make._is_input_newer` (pake/make.py lines
460-461): `(os.path.getmtime(input_file) - os.path.getmtime(output_file)) > 0.1`. -/
def isInputNewer (fs : FS) (input_file output_file : String) : Bool :=
  decide (fsMtime fs input_file - fsMtime fs output_file > 1/10)

/-- The skip rule as the specification claims it: skipped iff both outdated
sets are empty and no immediate dependency was re-executed in this run. -/
def claimedSkipRule (depRan : Bool) (r : TaskStepResult) : Prop :=
  r.ran = false ↔
    (r.outdated_inputs = [] ∧ r.outdated_outputs = [] ∧ depRan = false)

theorem fsIsFile_ne_empty {fs : FS} {p : String} (h : fsIsFile fs p = true) :
    p ≠ "" := by
  have := (Bool.and_eq_true _ _).mp h
  exact of_decide_eq_true this.1

theorem detectPairs_ok (fs : FS) (l : List (String × String))
    (hex : ∀ p ∈ l, fsIsFile fs p.1 = true) :
    detectPairs fs l =
      .ok ((l.filter (fun p => outdatedPair fs p.1 p.2)).map Prod.fst,
           (l.filter (fun p => outdatedPair fs p.1 p.2)).map Prod.snd) := by
  induction l with
  | nil => rfl
  | cons hd tl ih =>
    obtain ⟨ip, op⟩ := hd
    have h1 : fsIsFile fs ip = true := hex _ (List.mem_cons_self _ _)
    have h2 : ∀ p ∈ tl, fsIsFile fs p.1 = true :=
      fun p hp => hex p (List.mem_cons_of_mem _ hp)
    rw [detectPairs, h1, if_pos rfl, ih h2]
    by_cases hout : outdatedPair fs ip op = true
    · simp [List.filter_cons, hout]
    · simp [List.filter_cons, hout]

theorem mem_zip_left {a : String} :
    ∀ (i o : List String), i.length = o.length → a ∈ i → ∃ b, (a, b) ∈ i.zip o
  | _ :: it, [], hlen, _ => by simp at hlen
  | ip :: it, op :: ot, hlen, hmem => by
    rcases List.mem_cons.mp hmem with h | h
    · exact ⟨op, by simp [h]⟩
    · obtain ⟨b, hb⟩ := mem_zip_left it ot (by simpa using hlen) h
      exact ⟨b, List.mem_cons_of_mem _ hb⟩

/-- C1: for a task whose realized inputs and outputs are non-empty, of equal
length, and whose inputs all exist, `Pake._change_detect` returns exactly the
first and second components, in index order, of the index pairs whose output
is missing or older than the paired input. -/
theorem c1_paired_change_detect (fs : FS) (i o : List String)
    (hlen : i.length = o.length) (hne : i ≠ [])
    (hex : ∀ p ∈ i, fsIsFile fs p = true) :
    changeDetect fs i o =
      .ok ((outdatedPairs fs i o).map Prod.fst,
           (outdatedPairs fs i o).map Prod.snd) := by
  have hi : 0 < i.length := List.length_pos.mpr hne
  have ho : 0 < o.length := hlen ▸ hi
  by_cases h2 : 1 < o.length
  · have hstep : changeDetect fs i o = detectPairs fs (i.zip o) := by
      unfold changeDetect
      rw [if_neg (by omega), if_neg (by omega), if_pos h2,
          if_neg (by omega), if_neg (by omega)]
    rw [hstep, detectPairs_ok fs _ (fun p hp => hex p.1 (List.of_mem_zip hp).1)]
    rfl
  · have hol : o.length = 1 := by omega
    have hil : i.length = 1 := by omega
    obtain ⟨op, rfl⟩ : ∃ op, o = [op] := by
      cases o with
      | nil => simp at hol
      | cons x xs =>
        cases xs with
        | nil => exact ⟨x, rfl⟩
        | cons y ys => simp at hol
    obtain ⟨ip, rfl⟩ : ∃ ip, i = [ip] := by
      cases i with
      | nil => simp at hil
      | cons x xs =>
        cases xs with
        | nil => exact ⟨x, rfl⟩
        | cons y ys => simp at hil
    have hipex : fsIsFile fs ip = true := hex ip (by simp)
    have hstep : changeDetect fs [ip] [op] = detectSingle fs [ip] op := by
      unfold changeDetect
      rw [if_neg (by simp), if_neg (by simp), if_neg (by simp)]
    rw [hstep]
    unfold detectSingle
    by_cases hop : fsIsFile fs op = true
    · rw [if_pos hop]
      unfold detectSingleLoop detectSingleLoop
      rw [hipex, if_pos rfl]
      by_cases hlt : fsMtime fs op < fsMtime fs ip
      · have hpair : outdatedPair fs ip op = true := by
          simp [outdatedPair, hlt]
        simp [outdatedPairs, hpair, hlt, fsIsFile_ne_empty hop]
      · have hpair : outdatedPair fs ip op = false := by
          simp [outdatedPair, hlt, hop]
        simp [outdatedPairs, hpair, hlt]
    · rw [if_neg hop]
      have hop' : fsIsFile fs op = false := by
        simpa [Bool.not_eq_true] using hop
      have hpair : outdatedPair fs ip op = true := by
        simp [outdatedPair, hop']
      simp [outdatedPairs, hpair]

/-- C1 witness: a two-pair task where only the first output is stale. -/
theorem c1_paired_change_detect_witness :
    changeDetect [("a.c", (2:ℚ)), ("a.o", 1), ("b.c", 1), ("b.o", 5)]
        ["a.c", "b.c"] ["a.o", "b.o"] = .ok (["a.c"], ["a.o"]) := by
  have h := c1_paired_change_detect
      [("a.c", (2:ℚ)), ("a.o", 1), ("b.c", 1), ("b.o", 5)]
      ["a.c", "b.c"] ["a.o", "b.o"] rfl (by simp) (by decide)
  exact h.trans (by rfl)

/-- C3: a task with realized inputs but no realized outputs fails change
detection with the missing-outputs error before its body can run
(pake/pake.py lines 432-433, raised from the wrapper before `ctx_func`). -/
theorem c3_missing_outputs (fs : FS) (i : List String) (h : i ≠ []) :
    taskStep fs i [] = .error .missingOutputs := by
  have hlen : 0 < i.length := List.length_pos.mpr h
  unfold taskStep changeDetect
  rw [if_pos ⟨hlen, rfl⟩]

/-- C3 witness: one input, no outputs. -/
theorem c3_missing_outputs_witness :
    taskStep [("main.c", (1:ℚ))] ["main.c"] [] = .error .missingOutputs :=
  c3_missing_outputs [("main.c", (1:ℚ))] ["main.c"] (by simp)

theorem checkInputsExist_error (fs : FS) (i : List String)
    (h : ∃ p ∈ i, fsIsFile fs p = false) :
    checkInputsExist fs i = .error .inputNotFound := by
  induction i with
  | nil => simp at h
  | cons hd tl ih =>
    rw [checkInputsExist]
    by_cases hhd : fsIsFile fs hd = true
    · rw [if_pos hhd]
      apply ih
      obtain ⟨p, hp, hpf⟩ := h
      rcases List.mem_cons.mp hp with rfl | hmem
      · rw [hhd] at hpf; cases hpf
      · exact ⟨p, hmem, hpf⟩
    · rw [if_neg hhd]

theorem detectPairs_error (fs : FS) (l : List (String × String))
    (h : ∃ p ∈ l, fsIsFile fs p.1 = false) :
    detectPairs fs l = .error .inputNotFound := by
  induction l with
  | nil => simp at h
  | cons hd tl ih =>
    obtain ⟨ip, op⟩ := hd
    rw [detectPairs]
    by_cases hhd : fsIsFile fs ip = true
    · rw [if_pos hhd]
      have htl : detectPairs fs tl = .error .inputNotFound := by
        apply ih
        obtain ⟨p, hp, hpf⟩ := h
        rcases List.mem_cons.mp hp with rfl | hmem
        · rw [hhd] at hpf; cases hpf
        · exact ⟨p, hmem, hpf⟩
      rw [htl]
    · rw [if_neg hhd]

theorem detectSingleLoop_error (fs : FS) (op : String) (i : List String)
    (h : ∃ p ∈ i, fsIsFile fs p = false) :
    detectSingleLoop fs op i = .error .inputNotFound := by
  induction i with
  | nil => simp at h
  | cons hd tl ih =>
    rw [detectSingleLoop]
    by_cases hhd : fsIsFile fs hd = true
    · rw [if_pos hhd]
      have htl : detectSingleLoop fs op tl = .error .inputNotFound := by
        apply ih
        obtain ⟨p, hp, hpf⟩ := h
        rcases List.mem_cons.mp hp with rfl | hmem
        · rw [hhd] at hpf; cases hpf
        · exact ⟨p, hmem, hpf⟩
      rw [htl]
    · rw [if_neg hhd]

/-- C4 counterexample: with a single missing output, `Pake._change_detect`
returns outdated sets without checking that the input exists — the claimed
`InputNotFound` is not raised exactly in the case the claim calls out. -/
theorem c4_counterexample :
    fsIsFile [] "in.c" = false ∧
    changeDetect [] ["in.c"] ["out.o"] = .ok (["in.c"], ["out.o"]) :=
  ⟨rfl, rfl⟩

/-- C4 amended: a missing realized input makes `Pake._change_detect` raise
the input-not-found error in every decision-table row that compares file
times — several outputs (equal or mismatched lengths), or a single output
that exists.  (When the single output is missing the detector returns all
inputs as outdated without checking them, and when there are no outputs the
missing-outputs error takes precedence.) -/
theorem c4_missing_input_raises (fs : FS) (i o : List String)
    (hmiss : ∃ p ∈ i, fsIsFile fs p = false)
    (hrow : 1 < o.length ∨ ∃ op, o = [op] ∧ fsIsFile fs op = true) :
    changeDetect fs i o = .error .inputNotFound := by
  have hine : i ≠ [] := by
    obtain ⟨p, hp, _⟩ := hmiss
    exact List.ne_nil_of_mem hp
  have hi : 0 < i.length := List.length_pos.mpr hine
  rcases hrow with h2 | ⟨op, rfl, hop⟩
  · have hstep : changeDetect fs i o =
        if o.length ≠ i.length then detectCartesian fs i o
        else detectPairs fs (i.zip o) := by
      unfold changeDetect
      rw [if_neg (by omega), if_neg (by omega), if_pos h2, if_neg (by omega)]
    rw [hstep]
    by_cases hlen : o.length ≠ i.length
    · rw [if_pos hlen]
      unfold detectCartesian
      rw [checkInputsExist_error fs i hmiss]
    · rw [if_neg hlen]
      apply detectPairs_error
      obtain ⟨p, hp, hpf⟩ := hmiss
      obtain ⟨b, hb⟩ := mem_zip_left i o (by omega) hp
      exact ⟨(p, b), hb, hpf⟩
  · have hstep : changeDetect fs i [op] = detectSingle fs i op := by
      unfold changeDetect
      rw [if_neg (by simp), if_neg (by simp), if_neg (by simp)]
    rw [hstep]
    unfold detectSingle
    rw [if_pos hop, detectSingleLoop_error fs op i hmiss]

/-- C4 amended witness: two inputs (one missing) against one existing
output. -/
theorem c4_missing_input_raises_witness :
    changeDetect [("seen.c", (1:ℚ)), ("out.o", 5)] ["seen.c", "gone.c"]
      ["out.o"] = .error .inputNotFound :=
  c4_missing_input_raises [("seen.c", (1:ℚ)), ("out.o", 5)]
    ["seen.c", "gone.c"] ["out.o"]
    ⟨"gone.c", by simp, rfl⟩ (Or.inr ⟨"out.o", rfl, rfl⟩)

/-- C2 counterexample: a task whose files are up to date is skipped by the
wrapper even when an immediate dependency was re-executed in the same run
(`depRan = true`): the wrapper of pake/pake.py lines 599-615 consults only
the outdated sets, never dependency re-execution, so the claimed skip rule
fails. -/
theorem c2_counterexample :
    taskStep [("a.c", (1:ℚ)), ("a.o", 1)] ["a.c"] ["a.o"] =
      .ok ⟨["a.c"], ["a.o"], [], [], false⟩ ∧
    ¬ claimedSkipRule true ⟨["a.c"], ["a.o"], [], [], false⟩ := by
  refine ⟨rfl, fun hcl => ?_⟩
  have := hcl.mp rfl
  exact absurd this.2.2 (by simp)

/-- C2 amended: the task body is skipped iff the realized inputs or outputs
are non-empty and both computed outdated sets are empty (dependency
re-execution plays no role); in every case the context records the realized
inputs and outputs. -/
theorem c2_skip_rule (fs : FS) (i o : List String) (r : TaskStepResult)
    (h : taskStep fs i o = .ok r) :
    (r.ran = false ↔
      ((i ≠ [] ∨ o ≠ []) ∧ r.outdated_inputs = [] ∧ r.outdated_outputs = []))
    ∧ r.inputs = i ∧ r.outputs = o := by
  unfold taskStep at h
  cases hcd : changeDetect fs i o with
  | error e => rw [hcd] at h; cases h
  | ok pair =>
    obtain ⟨oi, oo⟩ := pair
    rw [hcd] at h
    have hr : r = { inputs := i, outputs := o, outdated_inputs := oi,
                    outdated_outputs := oo,
                    ran := if 0 < i.length ∨ 0 < o.length
                           then decide (0 < oi.length) || decide (0 < oo.length)
                           else true } := by
      cases h; rfl
    subst hr
    refine ⟨?_, rfl, rfl⟩
    by_cases hio : 0 < i.length ∨ 0 < o.length
    · simp only [if_pos hio]
      constructor
      · intro hran
        have hor := (Bool.or_eq_false_iff).mp hran
        refine ⟨?_, ?_, ?_⟩
        · rcases hio with hi | ho
          · exact Or.inl (List.ne_nil_of_length_pos hi)
          · exact Or.inr (List.ne_nil_of_length_pos ho)
        · have := of_decide_eq_false hor.1
          exact List.length_eq_zero.mp (by omega)
        · have := of_decide_eq_false hor.2
          exact List.length_eq_zero.mp (by omega)
      · rintro ⟨-, h1, h2⟩
        subst h1; subst h2
        rfl
    · simp only [if_neg hio]
      constructor
      · intro hfalse; cases hfalse
      · rintro ⟨hne, -, -⟩
        exfalso
        rcases hne with hne | hne
        · exact hio (Or.inl (List.length_pos.mpr hne))
        · exact hio (Or.inr (List.length_pos.mpr hne))

/-- C2 amended witness: the up-to-date single-pair task is skipped and its
context still records the realized inputs and outputs. -/
theorem c2_skip_rule_witness :
    (false = false ↔
      (((["a.c"] : List String) ≠ [] ∨ (["a.o"] : List String) ≠ []) ∧
        ([] : List String) = [] ∧ ([] : List String) = []))
    ∧ (["a.c"] : List String) = ["a.c"] ∧ (["a.o"] : List String) = ["a.o"] := by
  have h := c2_skip_rule [("a.c", (1:ℚ)), ("a.o", 1)] ["a.c"] ["a.o"]
      ⟨["a.c"], ["a.o"], [], [], false⟩ rfl
  exact h

/-- C6 counterexample: `Pake._change_detect` (the change detector of the
current engine) marks an input newer than an existing output when the mtime
difference is 1/20 s, although 1/20 ≤ 1/10 — it compares with strict `>`
and no 0.1 s tolerance. -/
theorem c6_counterexample :
    changeDetect [("i.c", (1:ℚ)/20), ("o.o", 0)] ["i.c"] ["o.o"] =
      .ok (["i.c"], ["o.o"]) ∧
    ¬ (fsMtime [("i.c", (1:ℚ)/20), ("o.o", 0)] "i.c" -
         fsMtime [("i.c", (1:ℚ)/20), ("o.o", 0)] "o.o" > 1/10) := by
  have hlt : fsMtime [("i.c", (1:ℚ)/20), ("o.o", 0)] "o.o" <
      fsMtime [("i.c", (1:ℚ)/20), ("o.o", 0)] "i.c" := by
    show (0:ℚ) < 1/20
    norm_num
  constructor
  · have hstep : changeDetect [("i.c", (1:ℚ)/20), ("o.o", 0)] ["i.c"] ["o.o"] =
        detectSingle [("i.c", (1:ℚ)/20), ("o.o", 0)] ["i.c"] "o.o" := by
      unfold changeDetect
      rw [if_neg (by simp), if_neg (by simp), if_neg (by simp)]
    have hii : fsIsFile [("i.c", (1:ℚ)/20), ("o.o", 0)] "i.c" = true := rfl
    have hoo : fsIsFile [("i.c", (1:ℚ)/20), ("o.o", 0)] "o.o" = true := rfl
    have hloop : detectSingleLoop [("i.c", (1:ℚ)/20), ("o.o", 0)] "o.o" ["i.c"] =
        .ok ["i.c"] := by
      unfold detectSingleLoop
      rw [if_pos hii]
      show (if decide (fsMtime [("i.c", (1:ℚ)/20), ("o.o", 0)] "o.o" <
              fsMtime [("i.c", (1:ℚ)/20), ("o.o", 0)] "i.c") = true
            then Except.ok ["i.c"] else Except.ok []) = Except.ok ["i.c"]
      rw [decide_eq_true hlt]
      rfl
    rw [hstep]
    unfold detectSingle
    rw [if_pos hoo, hloop]
    rfl
  · show ¬ ((1:ℚ)/20 - 0 > 1/10)
    norm_num

/-- C6 amended: the 0.1 s tolerance comparator is the legacy engine's
`Make._is_input_newer`; the change detector of the current engine
(`Pake._change_detect`) instead judges an existing input newer than an
existing output exactly when `mtime(i) > mtime(o)`, with no tolerance. -/
theorem c6_freshness_comparators (fs : FS) (ip op : String)
    (hip : fsIsFile fs ip = true) (hop : fsIsFile fs op = true) :
    (isInputNewer fs ip op = true ↔ fsMtime fs ip - fsMtime fs op > 1/10) ∧
    (changeDetect fs [ip] [op] =
      .ok (if fsMtime fs op < fsMtime fs ip then ([ip], [op]) else ([], []))) := by
  constructor
  · simp [isInputNewer]
  · have hstep : changeDetect fs [ip] [op] = detectSingle fs [ip] op := by
      unfold changeDetect
      rw [if_neg (by simp), if_neg (by simp), if_neg (by simp)]
    rw [hstep]
    unfold detectSingle
    rw [if_pos hop]
    unfold detectSingleLoop detectSingleLoop
    rw [hip, if_pos rfl]
    by_cases hlt : fsMtime fs op < fsMtime fs ip
    · simp [hlt, fsIsFile_ne_empty hop]
    · simp [hlt]

/-- C6 amended witness: with mtimes 2 and 1 the strict comparison fires and
the tolerance comparator agrees only because the gap exceeds 1/10. -/
theorem c6_freshness_comparators_witness :
    (isInputNewer [("i.c", (2:ℚ)), ("o.o", 1)] "i.c" "o.o" = true ↔
      fsMtime [("i.c", (2:ℚ)), ("o.o", 1)] "i.c" -
        fsMtime [("i.c", (2:ℚ)), ("o.o", 1)] "o.o" > 1/10) ∧
    (changeDetect [("i.c", (2:ℚ)), ("o.o", 1)] ["i.c"] ["o.o"] =
      .ok (if fsMtime [("i.c", (2:ℚ)), ("o.o", 1)] "o.o" <
             fsMtime [("i.c", (2:ℚ)), ("o.o", 1)] "i.c"
           then (["i.c"], ["o.o"]) else ([], []))) :=
  c6_freshness_comparators [("i.c", (2:ℚ)), ("o.o", 1)] "i.c" "o.o" rfl rfl

/-!
Registration (`Pake._add_task`, pake/pake.py lines 637-673).  The registry
state is the insertion-ordered name map `_task_contexts`, the dependency
edges added with `node.add_edge`, and the nodes attached to the root graph
`_graph`.  `graph.py` is not part of the sources; its `add_edge` /
`remove_edge` are modelled from the spec (add appends a node, remove deletes
it), which only the successful path exercises.  Python exceptions do not
roll back mutations, so each operation returns the (possibly partially
mutated) state together with an optional error.
-/

/-- Registry state of a `Pake` instance. -/
structure PakeRegistry where
  names : List String
  edges : List (String × String)
  rootNodes : List String
deriving DecidableEq, Repr

/-- Errors raised by `Pake._add_task`: `RedefinedTaskException` on a
duplicate name, `UndefinedTaskException` on an unregistered dependency. -/
inductive AddTaskErr where
  | redefined (task_name : String)
  | undefined (task_name : String)
deriving DecidableEq, Repr

/-- The dependency loop of `Pake._add_task` (pake/pake.py lines 665-671):
for each dependency, look it up (raising on an unknown name, with mutations
so far kept), add an edge from the new task and detach the dependency from
the root graph; finally attach the new task's node to the root graph. -/
def addTaskDeps (s : PakeRegistry) (task_name : String) :
    List String → PakeRegistry × Option AddTaskErr
  | [] => ({ s with rootNodes := s.rootNodes ++ [task_name] }, none)
  | d :: rest =>
    if d ∈ s.names then
      addTaskDeps { s with edges := s.edges ++ [(task_name, d)],
                           rootNodes := s.rootNodes.erase d } task_name rest
    else (s, some (.undefined d))

/-- `Pake._add_task` (pake/pake.py lines 637-673): the duplicate-name check
is the first statement, before any mutation; then the task context is
registered and the dependency loop runs. -/
def addTask (s : PakeRegistry) (task_name : String) (deps : List String) :
    PakeRegistry × Option AddTaskErr :=
  if task_name ∈ s.names then (s, some (.redefined task_name))
  else addTaskDeps { s with names := s.names ++ [task_name] } task_name deps

/-- C7: registering a task under an already-registered name fails with the
redefined-task error, and the registry (name map, dependency edges, root
graph) is returned exactly as it was: the duplicate check precedes every
mutation in `Pake._add_task`. -/
theorem c7_redefine_atomic (s : PakeRegistry) (task_name : String)
    (deps : List String) (h : task_name ∈ s.names) :
    addTask s task_name deps = (s, some (.redefined task_name)) := by
  unfold addTask
  rw [if_pos h]

/-- C7 witness: re-registering `"build"` leaves the registry untouched. -/
theorem c7_redefine_atomic_witness :
    addTask ⟨["build"], [], ["build"]⟩ "build" ["clean"] =
      (⟨["build"], [], ["build"]⟩, some (.redefined "build")) :=
  c7_redefine_atomic ⟨["build"], [], ["build"]⟩ "build" ["clean"] (by simp)

/-!
The subpake bridge (`pake.subpake`, pake/subpake.py lines 189-214).
-/

/-- The child nesting depth (pake/subpake.py lines 204-207): the calling
process's depth plus one when `pake.init` has run, else 0
(`PakeUninitializedException` is caught). -/
def subpakeChildDepth (parentDepth : Option Nat) : Nat :=
  match parentDepth with
  | some d => d + 1
  | none => 0

/-- The child argument list built by `pake.subpake` (pake/subpake.py lines
209-214): `[sys.executable, script] + extra_args + user args`, where
`extra_args` is the depth flag, `--stdin-defines`, and `--directory
script_dir` when the current working directory differs from the script's
directory. -/
def subpakeChildArgs (interpreter script scriptDir cwd : String)
    (parentDepth : Option Nat) (userArgs : List String) : List String :=
  let extra := ["--_subpake_depth", toString (subpakeChildDepth parentDepth),
                "--stdin-defines"]
    ++ (if cwd ≠ scriptDir then ["--directory", scriptDir] else [])
  [interpreter, script] ++ extra ++ userArgs

/-- The child argument list exactly as the specification words it:
`[interpreter, script, "--_subpake_depth", depth, "--stdin-defines",
...(if script_dir ≠ cwd: "--directory", script_dir), user_args…]` with
depth the initialized parent depth plus one, or 0 when uninitialized. -/
def subpakeChildArgsClaim (interpreter script scriptDir cwd : String)
    (parentDepth : Option Nat) (userArgs : List String) : List String :=
  let depth : Nat := match parentDepth with
    | some d => d + 1
    | none => 0
  ["--_subpake_depth", toString depth, "--stdin-defines"]
    |> (fun flags => [interpreter, script] ++ flags
          ++ (if scriptDir ≠ cwd then ["--directory", scriptDir] else [])
          ++ userArgs)

/-- C8: the argument list `pake.subpake` passes to the child process is
exactly the one the specification claims, for every interpreter, script,
directory pair, parent depth and user argument list. -/
theorem c8_subpake_child_args (interpreter script scriptDir cwd : String)
    (parentDepth : Option Nat) (userArgs : List String) :
    subpakeChildArgs interpreter script scriptDir cwd parentDepth userArgs =
      subpakeChildArgsClaim interpreter script scriptDir cwd parentDepth userArgs := by
  unfold subpakeChildArgs subpakeChildArgsClaim subpakeChildDepth
  by_cases h : cwd = scriptDir
  · subst h
    simp
  · rw [if_pos h, if_pos (Ne.symm h)]
    simp

/-!
The Define Store lookups (`Pake.get_define` / `Pake.__getitem__`,
pake/pake.py lines 366-385; `Make.get_define`, pake/make.py lines 252-282,
behaves identically).  Both are pure reads: no mutation of the store is
possible and no exception can be raised.
-/

/-- `Pake.get_define`: `self._defines.get(name, default)`. -/
def getDefine {α : Type} (defines : List (String × α)) (define_name : String)
    (default : Option α) : Option α :=
  match List.lookup define_name defines with
  | some v => some v
  | none => default

/-- `Pake.__getitem__`: indexing forwards to `get_define` with default
`None`. -/
def getItem {α : Type} (defines : List (String × α)) (define_name : String) :
    Option α :=
  getDefine defines define_name none

/-- C10: for a name not present in the Define Store, `get_define` returns
the caller-supplied default (`None` if not supplied) and the indexing form
returns `None`; both are total pure reads, so no exception is raised and
the store is unchanged. -/
theorem c10_get_define_missing {α : Type} (defines : List (String × α))
    (define_name : String) (default : Option α)
    (h : List.lookup define_name defines = none) :
    getDefine defines define_name default = default ∧
    getItem defines define_name = none := by
  constructor
  · unfold getDefine
    rw [h]
  · unfold getItem getDefine
    rw [h]

/-- C10 witness: looking up `"MISSING"` in a one-entry store. -/
theorem c10_get_define_missing_witness :
    getDefine [("VER", 3)] "MISSING" (some 7) = some 7 ∧
    getItem [("VER", 3)] "MISSING" = none :=
  c10_get_define_missing [("VER", 3)] "MISSING" (some 7) rfl

/-!
Scheduling order (C5).  `Pake.run` (pake/pake.py lines 709-727) executes,
for `jobs == 1`, the nodes of `node.topological_sort()` in order on the
calling thread; for `jobs > 1` each context first waits on its
dependencies' futures (`TaskContext._i_submit_self`, lines 192-204) and
tasks are submitted in the same sorted order.  The module `pake/graph.py`
that implements `topological_sort` is not among the sources, so the sort is
modelled from the spec (§4.1): a depth-first traversal from the requested
root that emits every node after its dependencies.  `visitR` builds that
order reversed (head = last task), with explicit fuel bounding the
recursion depth; any fuel above every dependency-chain length is enough.
-/

/-- A dependency graph: association list from task name to the names of its
immediate dependencies. -/
abbrev DepGraph : Type := List (String × List String)

/-- Immediate dependencies of a node (absent nodes have none). -/
def depsOf (g : DepGraph) (n : String) : List String :=
  (List.lookup n g).getD []

/-- `dependsOn g a b`: `b` is an immediate dependency of `a`. -/
def dependsOn (g : DepGraph) (a b : String) : Prop :=
  b ∈ depsOf g a

/-- Modelled from the spec: the depth-first topological visit of
`pake/graph.py` (missing from the sources), accumulating the order in
reverse — a node is pushed after all its dependencies have been visited. -/
def visitR (g : DepGraph) : Nat → String → List String → List String
  | 0, _, acc => acc
  | fuel + 1, n, acc =>
    if n ∈ acc then acc
    else n :: (depsOf g n).foldl (fun a d => visitR g fuel d a) acc

/-- Modelled from the spec: `topological_sort` restricted to the nodes
reachable from `root`, dependencies first.  This is the execution order of
`Pake.run` with `jobs == 1` for a single requested task. -/
def topologicalSort (g : DepGraph) (fuel : Nat) (root : String) : List String :=
  (visitR g fuel root []).reverse

/-- The reversed-order invariant: every node's immediate dependencies occur
later in the reversed list, i.e. earlier in the execution order. -/
def goodRev (g : DepGraph) : List String → Prop
  | [] => True
  | n :: rest => (∀ d ∈ depsOf g n, d ∈ rest) ∧ goodRev g rest

theorem lookup_mem {g : DepGraph} {n : String} {l : List String}
    (h : List.lookup n g = some l) : (n, l) ∈ g := by
  induction g with
  | nil => simp [List.lookup] at h
  | cons e es ih =>
    obtain ⟨k, v⟩ := e
    rw [List.lookup] at h
    by_cases hk : (n == k) = true
    · simp only [hk] at h
      injection h with h2
      subst h2
      have hnk : n = k := by simpa using hk
      subst hnk
      exact List.mem_cons_self _ _
    · simp only [Bool.not_eq_true] at hk
      simp only [hk] at h
      exact List.mem_cons_of_mem _ (ih h)

theorem visitR_mono (g : DepGraph) :
    ∀ (fuel : Nat) (n : String) (acc : List String), acc ⊆ visitR g fuel n acc := by
  intro fuel
  induction fuel with
  | zero => intro n acc; rw [visitR]; exact List.Subset.refl _
  | succ fuel ih =>
    intro n acc
    rw [visitR]
    by_cases h : n ∈ acc
    · rw [if_pos h]; exact List.Subset.refl _
    · rw [if_neg h]
      refine List.Subset.trans ?_ (List.subset_cons_self _ _)
      have aux : ∀ (ds acc2 : List String),
          acc2 ⊆ ds.foldl (fun a d => visitR g fuel d a) acc2 := by
        intro ds
        induction ds with
        | nil => intro acc2; rw [List.foldl_nil]; exact List.Subset.refl _
        | cons d ds ihds =>
          intro acc2
          rw [List.foldl_cons]
          exact (ih d acc2).trans (ihds _)
      exact aux _ acc

theorem visitR_foldl_mono (g : DepGraph) (fuel : Nat) :
    ∀ (ds acc : List String), acc ⊆ ds.foldl (fun a d => visitR g fuel d a) acc := by
  intro ds
  induction ds with
  | nil => intro acc; rw [List.foldl_nil]; exact List.Subset.refl _
  | cons d ds ihds =>
    intro acc
    rw [List.foldl_cons]
    exact (visitR_mono g fuel d acc).trans (ihds _)

theorem visitR_self (g : DepGraph) (fuel : Nat) (n : String) (acc : List String)
    (h : 0 < fuel) : n ∈ visitR g fuel n acc := by
  cases fuel with
  | zero => exact absurd h (by omega)
  | succ fuel =>
    rw [visitR]
    by_cases hm : n ∈ acc
    · rw [if_pos hm]; exact hm
    · rw [if_neg hm]; exact List.mem_cons_self _ _

theorem visitR_foldl_mem (g : DepGraph) (fuel : Nat) (hf : 0 < fuel) :
    ∀ (ds acc : List String) (d : String), d ∈ ds →
      d ∈ ds.foldl (fun a d => visitR g fuel d a) acc := by
  intro ds
  induction ds with
  | nil => intro acc d h; simp at h
  | cons hd tl ih =>
    intro acc d hmem
    rw [List.foldl_cons]
    rcases List.mem_cons.mp hmem with rfl | h2
    · exact visitR_foldl_mono g fuel tl _ (visitR_self g fuel d acc hf)
    · exact ih _ d h2

theorem visitR_foldl_mem_src (g : DepGraph) (fuel : Nat)
    (hP : ∀ (n : String) (acc : List String) (m : String), m ∈ visitR g fuel n acc →
      m ∈ acc ∨ Relation.ReflTransGen (dependsOn g) n m) :
    ∀ (ds acc : List String) (m : String),
      m ∈ ds.foldl (fun a d => visitR g fuel d a) acc →
      m ∈ acc ∨ ∃ d ∈ ds, Relation.ReflTransGen (dependsOn g) d m := by
  intro ds
  induction ds with
  | nil => intro acc m h; rw [List.foldl_nil] at h; exact Or.inl h
  | cons d ds ihds =>
    intro acc m h
    rw [List.foldl_cons] at h
    rcases ihds _ m h with hin | ⟨d2, hd2, hrt⟩
    · rcases hP d acc m hin with hin2 | hrt
      · exact Or.inl hin2
      · exact Or.inr ⟨d, List.mem_cons_self _ _, hrt⟩
    · exact Or.inr ⟨d2, List.mem_cons_of_mem _ hd2, hrt⟩

theorem visitR_mem_src (g : DepGraph) :
    ∀ (fuel : Nat) (n : String) (acc : List String) (m : String),
      m ∈ visitR g fuel n acc →
      m ∈ acc ∨ Relation.ReflTransGen (dependsOn g) n m := by
  intro fuel
  induction fuel with
  | zero => intro n acc m h; rw [visitR] at h; exact Or.inl h
  | succ fuel ih =>
    intro n acc m h
    rw [visitR] at h
    by_cases hm : n ∈ acc
    · rw [if_pos hm] at h; exact Or.inl h
    · rw [if_neg hm] at h
      rcases List.mem_cons.mp h with rfl | h2
      · exact Or.inr Relation.ReflTransGen.refl
      · rcases visitR_foldl_mem_src g fuel ih _ _ _ h2 with hin | ⟨d, hd, hrt⟩
        · exact Or.inl hin
        · exact Or.inr (Relation.ReflTransGen.head hd hrt)

theorem transGen_rank {g : DepGraph} {rank : String → Nat}
    (hdep : ∀ n d, d ∈ depsOf g n → rank d < rank n) :
    ∀ {a b : String}, Relation.TransGen (dependsOn g) a b → rank b < rank a := by
  intro a b h
  induction h with
  | single h1 => exact hdep _ _ h1
  | tail h1 h2 ih => exact (hdep _ _ h2).trans ih

theorem visitR_nodup (g : DepGraph) (rank : String → Nat)
    (hdep : ∀ n d, d ∈ depsOf g n → rank d < rank n) :
    ∀ (fuel : Nat) (n : String) (acc : List String),
      acc.Nodup → (visitR g fuel n acc).Nodup := by
  intro fuel
  induction fuel with
  | zero => intro n acc h; rw [visitR]; exact h
  | succ fuel ih =>
    have aux : ∀ (ds acc : List String),
        acc.Nodup → (ds.foldl (fun a d => visitR g fuel d a) acc).Nodup := by
      intro ds
      induction ds with
      | nil => intro acc h; rw [List.foldl_nil]; exact h
      | cons d ds ihds =>
        intro acc h
        rw [List.foldl_cons]
        exact ihds _ (ih d acc h)
    intro n acc hacc
    rw [visitR]
    by_cases hm : n ∈ acc
    · rw [if_pos hm]; exact hacc
    · rw [if_neg hm]
      rw [List.nodup_cons]
      refine ⟨?_, aux _ acc hacc⟩
      intro hn
      rcases visitR_foldl_mem_src g fuel (visitR_mem_src g fuel) _ _ _ hn with
        hin | ⟨d, hd, hrt⟩
      · exact hm hin
      · have hcycle : Relation.TransGen (dependsOn g) n n :=
          Relation.TransGen.head' hd hrt
        exact absurd (transGen_rank hdep hcycle) (by omega)

theorem goodRev_append_right (g : DepGraph) :
    ∀ (p q : List String), goodRev g (p ++ q) → goodRev g q := by
  intro p
  induction p with
  | nil => intro q h; exact h
  | cons x p ihp => intro q h; exact ihp q h.2

theorem visitR_good (g : DepGraph) (rank : String → Nat)
    (hdep : ∀ n d, d ∈ depsOf g n → rank d < rank n) :
    ∀ (fuel : Nat) (n : String) (acc : List String),
      rank n < fuel → goodRev g acc → goodRev g (visitR g fuel n acc) := by
  intro fuel
  induction fuel with
  | zero => intro n acc h; exact absurd h (by omega)
  | succ fuel ih =>
    intro n acc hr hacc
    rw [visitR]
    by_cases hm : n ∈ acc
    · rw [if_pos hm]; exact hacc
    · rw [if_neg hm]
      have aux : ∀ (ds acc2 : List String), (∀ d ∈ ds, rank d < fuel) →
          goodRev g acc2 →
          goodRev g (ds.foldl (fun a d => visitR g fuel d a) acc2) ∧
          (∀ d ∈ ds, d ∈ ds.foldl (fun a d => visitR g fuel d a) acc2) := by
        intro ds
        induction ds with
        | nil =>
          intro acc2 hds h2
          rw [List.foldl_nil]
          exact ⟨h2, by simp⟩
        | cons d ds ihds =>
          intro acc2 hds h2
          rw [List.foldl_cons]
          have hd : rank d < fuel := hds d (List.mem_cons_self _ _)
          have hstep := ih d acc2 hd h2
          obtain ⟨hgood, hmem⟩ :=
            ihds _ (fun x hx => hds x (List.mem_cons_of_mem _ hx)) hstep
          refine ⟨hgood, ?_⟩
          intro x hx
          rcases List.mem_cons.mp hx with rfl | hx2
          · exact visitR_foldl_mono g fuel ds _
              (visitR_self g fuel x acc2 (by omega))
          · exact hmem x hx2
      have hds : ∀ d ∈ depsOf g n, rank d < fuel := by
        intro d hd
        have := hdep n d hd
        omega
      obtain ⟨hgood, hmem⟩ := aux (depsOf g n) acc hds hacc
      exact ⟨hmem, hgood⟩

theorem goodRev_reaches (g : DepGraph) (L : List String) (hgood : goodRev g L) :
    ∀ {a b : String}, Relation.TransGen (dependsOn g) a b →
      ∀ (q p : List String), L = q ++ a :: p → b ∈ p := by
  intro a b htrans
  induction htrans with
  | @single m h1 =>
    intro q p hdecomp
    have h2 : goodRev g (a :: p) := goodRev_append_right g q _ (hdecomp ▸ hgood)
    exact h2.1 _ h1
  | @tail m c h1 h2 ih =>
    intro q p hdecomp
    have hbmem : m ∈ p := ih q p hdecomp
    obtain ⟨p₁, p₂, hsplit⟩ := List.append_of_mem hbmem
    have hdecomp2 : L = (q ++ a :: p₁) ++ m :: p₂ := by
      rw [hdecomp, hsplit]
      simp
    have h3 : goodRev g (m :: p₂) :=
      goodRev_append_right g (q ++ a :: p₁) _ (hdecomp2 ▸ hgood)
    have hc : c ∈ p₂ := h3.1 _ h2
    rw [hsplit]
    exact List.mem_append_right _ (List.mem_cons_of_mem _ hc)

/-- C5: in the execution order used by a run (the spec-modelled topological
sort of the dependency graph, which `Pake.run` with `jobs == 1` executes
left to right, and in which each task follows all of its dependencies), no
task appearing before task `U` is a transitive dependent of `U` — provided
the graph is acyclic, witnessed by a rank function decreasing along
dependency edges, and the fuel exceeds the root's rank. -/
theorem c5_order_no_dependent_before (g : DepGraph) (rank : String → Nat)
    (fuel : Nat) (root : String)
    (hrank : ∀ e ∈ g, ∀ d ∈ e.2, rank d < rank e.1)
    (hfuel : rank root < fuel)
    (pre : List String) (U : String) (post : List String)
    (hdecomp : topologicalSort g fuel root = pre ++ U :: post)
    (T : String) (hT : T ∈ pre) :
    ¬ Relation.TransGen (dependsOn g) T U := by
  intro htrans
  have hdep : ∀ n d, d ∈ depsOf g n → rank d < rank n := by
    intro n d hd
    unfold depsOf at hd
    cases hl : List.lookup n g with
    | none => rw [hl] at hd; simp at hd
    | some l =>
      rw [hl] at hd
      exact hrank (n, l) (lookup_mem hl) d hd
  have hgood : goodRev g (visitR g fuel root []) :=
    visitR_good g rank hdep fuel root [] hfuel trivial
  have hnodup : (visitR g fuel root []).Nodup :=
    visitR_nodup g rank hdep fuel root [] List.nodup_nil
  have hLdecomp : visitR g fuel root [] = post.reverse ++ U :: pre.reverse := by
    have h1 := congrArg List.reverse hdecomp
    rw [topologicalSort] at h1
    simpa using h1
  have hTrev : T ∈ pre.reverse := List.mem_reverse.mpr hT
  obtain ⟨p₁, p₂, hsplit⟩ := List.append_of_mem hTrev
  have hLT : visitR g fuel root [] = (post.reverse ++ U :: p₁) ++ T :: p₂ := by
    rw [hLdecomp, hsplit]
    simp
  have hUmem : U ∈ p₂ := goodRev_reaches g _ hgood htrans _ _ hLT
  have hUpre : U ∈ pre.reverse := by
    rw [hsplit]
    exact List.mem_append_right _ (List.mem_cons_of_mem _ hUmem)
  rw [hLdecomp] at hnodup
  have hnd2 : (U :: pre.reverse).Nodup := hnodup.of_append_right
  exact (List.nodup_cons.mp hnd2).1 hUpre

/-- C5 witness: the diamond `D → B, D → C, B → A, C → A`; in the computed
order `[A, B, C, D]`, task `B` precedes `C` and is indeed not a transitive
dependent of `C`. -/
theorem c5_order_no_dependent_before_witness :
    ¬ Relation.TransGen
        (dependsOn [("D", ["B", "C"]), ("B", ["A"]), ("C", ["A"]), ("A", [])])
        "B" "C" :=
  c5_order_no_dependent_before
    [("D", ["B", "C"]), ("B", ["A"]), ("C", ["A"]), ("A", [])]
    (fun s => if s = "D" then 3 else if s = "B" then 2 else if s = "C" then 2 else 0)
    5 "D" (by decide) (by decide)
    ["A", "B"] "C" ["D"] (by rfl) "B" (by decide)

/-!
Define serialization across the subpake boundary (C9).  The parent writes
`repr(EXPORTS)` — the Python literal representation of the export mapping —
to the child's stdin (pake/subpake.py lines 230 and 255); the child parses
it with the literal grammar used for `-D` values
(`pake.util.parse_define_value`, a module not among the sources, so the
parser is modelled from the spec §4.7: a literal expression admitting
integers, floats, booleans, quoted strings, list, set, mapping and tuple
displays, with composite literals containing only literals).

Values are modelled as a tagged literal tree `PyLit`:
* strings are lists of characters; serialization escapes the backslash, the
  single quote, newline, carriage return and tab, as Python `repr` does for
  single-quoted strings;
* floats are modelled by their decimal literal (sign, integer part,
  fractional digits), which `repr` prints and the parser reads back;
* sets and mappings are backed by lists in iteration order, so Python's
  order-insensitive equality coincides with structural equality here;
* `repr` of the empty set is `set()` — a call, not a literal.
-/

/-- Single quote. -/
def squote : Char := Char.ofNat 39

/-- Double quote. -/
def dquote : Char := Char.ofNat 34

/-- Backslash. -/
def bslash : Char := Char.ofNat 92

/-- Opening curly bracket. -/
def lbrace : Char := Char.ofNat 123

/-- Closing curly bracket. -/
def rbrace : Char := Char.ofNat 125

/-- Newline. -/
def nlChar : Char := Char.ofNat 10

/-- Carriage return. -/
def crChar : Char := Char.ofNat 13

/-- Horizontal tab. -/
def tabChar : Char := Char.ofNat 9

/-- The decimal digit character for `d` (meaningful for `d < 10`). -/
def digitChar10 (d : Nat) : Char := Char.ofNat (48 + d)

/-- The numeric value of a decimal digit character. -/
def valNat (c : Char) : Nat := c.toNat - 48

/-- Big-endian decimal digits, fuel-bounded: the digits of `n` are prepended
to `acc`. -/
def natToCharsAux : Nat → Nat → List Char → List Char
  | 0, _, acc => acc
  | fuel + 1, n, acc =>
    if n < 10 then digitChar10 n :: acc
    else natToCharsAux fuel (n / 10) (digitChar10 (n % 10) :: acc)

/-- The decimal representation of a natural number, as Python prints it. -/
def natToChars (n : Nat) : List Char := natToCharsAux (n + 1) n []

/-- Evaluate a big-endian list of digit characters. -/
def charsToNat (ds : List Char) : Nat :=
  ds.foldl (fun a c => a * 10 + valNat c) 0

theorem valNat_digitChar10 {d : Nat} (h : d < 10) : valNat (digitChar10 d) = d := by
  interval_cases d <;> rfl

theorem isDigit_digitChar10 {d : Nat} (h : d < 10) :
    (digitChar10 d).isDigit = true := by
  interval_cases d <;> rfl

theorem natToCharsAux_append :
    ∀ (fuel n : Nat) (acc : List Char),
      natToCharsAux fuel n acc = natToCharsAux fuel n [] ++ acc := by
  intro fuel
  induction fuel with
  | zero => intro n acc; rw [natToCharsAux, natToCharsAux]; rfl
  | succ fuel ih =>
    intro n acc
    rw [natToCharsAux, natToCharsAux]
    by_cases h : n < 10
    · rw [if_pos h, if_pos h]; rfl
    · rw [if_neg h, if_neg h, ih (n / 10) (digitChar10 (n % 10) :: acc),
          ih (n / 10) [digitChar10 (n % 10)]]
      simp

theorem natToCharsAux_digits :
    ∀ (fuel n : Nat) (acc : List Char), (∀ c ∈ acc, c.isDigit = true) →
      ∀ c ∈ natToCharsAux fuel n acc, c.isDigit = true := by
  intro fuel
  induction fuel with
  | zero => intro n acc hacc; rw [natToCharsAux]; exact hacc
  | succ fuel ih =>
    intro n acc hacc
    rw [natToCharsAux]
    by_cases h : n < 10
    · rw [if_pos h]
      intro c hc
      rcases List.mem_cons.mp hc with rfl | hc2
      · exact isDigit_digitChar10 h
      · exact hacc c hc2
    · rw [if_neg h]
      refine ih (n / 10) _ ?_
      intro c hc
      rcases List.mem_cons.mp hc with rfl | hc2
      · exact isDigit_digitChar10 (Nat.mod_lt n (by omega))
      · exact hacc c hc2

theorem natToChars_digits (n : Nat) : ∀ c ∈ natToChars n, c.isDigit = true :=
  natToCharsAux_digits (n + 1) n [] (by simp)

theorem natToCharsAux_ne_nil :
    ∀ (fuel n : Nat) (acc : List Char), 0 < fuel →
      natToCharsAux fuel n acc ≠ [] := by
  intro fuel
  induction fuel with
  | zero => intro n acc h; exact absurd h (by omega)
  | succ fuel ih =>
    intro n acc _
    rw [natToCharsAux]
    by_cases h : n < 10
    · rw [if_pos h]; simp
    · rw [if_neg h]
      cases fuel with
      | zero => rw [natToCharsAux]; simp
      | succ fuel2 => exact ih (n / 10) _ (by omega)

theorem natToChars_ne_nil (n : Nat) : natToChars n ≠ [] :=
  natToCharsAux_ne_nil (n + 1) n [] (by omega)

theorem charsToNat_natToCharsAux :
    ∀ (fuel n : Nat), n < 10 ^ fuel →
      charsToNat (natToCharsAux fuel n []) = n := by
  intro fuel
  induction fuel with
  | zero =>
    intro n h
    have : n = 0 := by simpa using h
    subst this
    rfl
  | succ fuel ih =>
    intro n h
    rw [natToCharsAux]
    by_cases hlt : n < 10
    · rw [if_pos hlt]
      show 0 * 10 + valNat (digitChar10 n) = n
      rw [valNat_digitChar10 hlt]
      omega
    · rw [if_neg hlt, natToCharsAux_append]
      have hdiv : n / 10 < 10 ^ fuel := by
        rw [Nat.div_lt_iff_lt_mul (by omega)]
        calc n < 10 ^ (fuel + 1) := h
        _ = 10 ^ fuel * 10 := by rw [Nat.pow_succ]
      have hrec := ih (n / 10) hdiv
      unfold charsToNat at hrec ⊢
      rw [List.foldl_append, hrec]
      show (n / 10) * 10 + valNat (digitChar10 (n % 10)) = n
      rw [valNat_digitChar10 (Nat.mod_lt n (by omega))]
      omega

theorem charsToNat_natToChars (n : Nat) : charsToNat (natToChars n) = n := by
  unfold natToChars
  apply charsToNat_natToCharsAux
  calc n < 10 ^ n := Nat.lt_pow_self (by omega) n
  _ ≤ 10 ^ (n + 1) := Nat.pow_le_pow_right (by omega) (by omega)

theorem takeWhile_append_all {p : Char → Bool} :
    ∀ (l r : List Char), (∀ c ∈ l, p c = true) →
      (∀ c, r.head? = some c → p c = false) →
      (l ++ r).takeWhile p = l ∧ (l ++ r).dropWhile p = r := by
  intro l
  induction l with
  | nil =>
    intro r _ hr
    cases r with
    | nil => exact ⟨rfl, rfl⟩
    | cons c cs =>
      have hc : p c = false := hr c rfl
      constructor
      · rw [List.nil_append, List.takeWhile_cons, hc]
        rfl
      · rw [List.nil_append, List.dropWhile_cons, hc]
        rfl
  | cons x l ihl =>
    intro r hl hr
    have hx : p x = true := hl x (List.mem_cons_self _ _)
    obtain ⟨h1, h2⟩ := ihl r (fun c hc => hl c (List.mem_cons_of_mem _ hc)) hr
    constructor
    · rw [List.cons_append, List.takeWhile_cons, hx, h1]
      rfl
    · rw [List.cons_append, List.dropWhile_cons, hx, h2]
      rfl

/-- A float value by its decimal literal: sign, integer part, fractional
digits.  `repr` of a Python float prints exactly such a literal (possibly
with an exponent, which the export values used in practice do not need). -/
structure PyFloat where
  neg : Bool
  whole : Nat
  frac : List (Fin 10)
deriving DecidableEq, Repr

mutual
/-- A Define Store value: the tagged literal tree of the supported kinds. -/
inductive PyLit where
  | int (n : Int)
  | float (f : PyFloat)
  | bool (b : Bool)
  | str (s : List Char)
  | list (xs : PyLits)
  | set (xs : PyLits)
  | dict (ps : PyPairs)
  | tup (xs : PyLits)
/-- A sequence of Define Store values. -/
inductive PyLits where
  | nil
  | cons (hd : PyLit) (tl : PyLits)
/-- A sequence of key-value pairs of a mapping value. -/
inductive PyPairs where
  | nil
  | cons (k v : PyLit) (tl : PyPairs)
end

/-- Decimal representation of a Python integer. -/
def intChars (n : Int) : List Char :=
  if n < 0 then Char.ofNat 45 :: natToChars n.natAbs else natToChars n.toNat

/-- Decimal literal of a float value. -/
def floatChars (f : PyFloat) : List Char :=
  (if f.neg then [Char.ofNat 45] else []) ++ natToChars f.whole
    ++ Char.ofNat 46 :: f.frac.map (fun d => digitChar10 d.val)

/-- Escaping of one string character, as Python `repr` does inside a
single-quoted string: backslash, quote, newline, carriage return and tab
get a backslash escape, anything else is emitted as itself. -/
def escChar (c : Char) : List Char :=
  if c = bslash then [bslash, bslash]
  else if c = squote then [bslash, squote]
  else if c = nlChar then [bslash, Char.ofNat 110]
  else if c = crChar then [bslash, Char.ofNat 114]
  else if c = tabChar then [bslash, Char.ofNat 116]
  else [c]

/-- Escaping of a whole string body. -/
def escStr : List Char → List Char
  | [] => []
  | c :: cs => escChar c ++ escStr cs

mutual
/-- Python `repr` of a value: the serialized form the parent writes to the
subpake child's stdin (pake/subpake.py lines 230 and 255). -/
def serV : PyLit → List Char
  | .int n => intChars n
  | .float f => floatChars f
  | .bool b => if b then ['T', 'r', 'u', 'e'] else ['F', 'a', 'l', 's', 'e']
  | .str s => squote :: escStr s ++ [squote]
  | .list xs => '[' :: serItems xs ++ [']']
  | .set .nil => ['s', 'e', 't', '(', ')']
  | .set (.cons x xs) => lbrace :: serItems (.cons x xs) ++ [rbrace]
  | .dict ps => lbrace :: serPairs ps ++ [rbrace]
  | .tup .nil => ['(', ')']
  | .tup (.cons x .nil) => '(' :: serV x ++ [',', ')']
  | .tup (.cons x (.cons y ys)) => '(' :: serItems (.cons x (.cons y ys)) ++ [')']
/-- `repr` of comma-space separated elements. -/
def serItems : PyLits → List Char
  | .nil => []
  | .cons x .nil => serV x
  | .cons x (.cons y ys) => serV x ++ ',' :: ' ' :: serItems (.cons y ys)
/-- `repr` of comma-space separated `key: value` pairs. -/
def serPairs : PyPairs → List Char
  | .nil => []
  | .cons k v .nil => serV k ++ ':' :: ' ' :: serV v
  | .cons k v (.cons k2 v2 ps) =>
    serV k ++ ':' :: ' ' :: serV v ++ ',' :: ' ' :: serPairs (.cons k2 v2 ps)
end

mutual
/-- Structural size of a value, bounding the parser fuel it needs. -/
def sizeV : PyLit → Nat
  | .int _ => 1
  | .float _ => 1
  | .bool _ => 1
  | .str _ => 1
  | .list xs => sizeL xs + 1
  | .set xs => sizeL xs + 1
  | .dict ps => sizeP ps + 1
  | .tup xs => sizeL xs + 1
/-- Structural size of an element sequence. -/
def sizeL : PyLits → Nat
  | .nil => 0
  | .cons x xs => sizeV x + sizeL xs + 1
/-- Structural size of a pair sequence. -/
def sizeP : PyPairs → Nat
  | .nil => 0
  | .cons k v ps => sizeV k + sizeV v + sizeP ps + 1
end

mutual
/-- No empty-set value occurs anywhere in the tree (the serialized form of
the empty set, `set()`, is not a literal). -/
def noESetV : PyLit → Bool
  | .int _ => true
  | .float _ => true
  | .bool _ => true
  | .str _ => true
  | .list xs => noESetL xs
  | .set .nil => false
  | .set (.cons x xs) => noESetL (.cons x xs)
  | .dict ps => noESetP ps
  | .tup xs => noESetL xs
/-- `noESetV` over an element sequence. -/
def noESetL : PyLits → Bool
  | .nil => true
  | .cons x xs => noESetV x && noESetL xs
/-- `noESetV` over a pair sequence. -/
def noESetP : PyPairs → Bool
  | .nil => true
  | .cons k v ps => noESetV k && noESetV v && noESetP ps
end

/-- Sign applied to a parsed magnitude. -/
def intOfParts (neg : Bool) (k : Nat) : Int :=
  if neg then -(k : Int) else (k : Int)

/-- A digit character as a `Fin 10` (meaningful on digit characters). -/
def charToFin (c : Char) : Fin 10 :=
  ⟨valNat c % 10, Nat.mod_lt _ (by omega)⟩

/-- Modelled from the spec: number parsing of the literal grammar — a digit
run, optionally followed by a point and a fractional digit run. -/
def parseNumCore (neg : Bool) (cs1 : List Char) : Option (PyLit × List Char) :=
  if cs1.takeWhile (fun c => c.isDigit) = [] then none
  else
    match cs1.dropWhile (fun c => c.isDigit) with
    | c :: r2 =>
      if c = '.' then
        some (.float ⟨neg, charsToNat (cs1.takeWhile (fun c => c.isDigit)),
                      (r2.takeWhile (fun c => c.isDigit)).map charToFin⟩,
              r2.dropWhile (fun c => c.isDigit))
      else
        some (.int (intOfParts neg (charsToNat (cs1.takeWhile (fun c => c.isDigit)))),
              c :: r2)
    | [] =>
      some (.int (intOfParts neg (charsToNat (cs1.takeWhile (fun c => c.isDigit)))), [])

/-- Modelled from the spec: a number literal with an optional leading
minus sign. -/
def parseNum : List Char → Option (PyLit × List Char)
  | [] => none
  | c :: rest => if c = '-' then parseNumCore true rest else parseNumCore false (c :: rest)

/-- Inverse of one escape character. -/
def unescChar (c : Char) : Option Char :=
  if c = bslash then some bslash
  else if c = squote then some squote
  else if c = dquote then some dquote
  else if c = Char.ofNat 110 then some nlChar
  else if c = Char.ofNat 114 then some crChar
  else if c = Char.ofNat 116 then some tabChar
  else none

/-- Modelled from the spec: the body of a quoted string literal, up to the
closing quote `qc`. -/
def parseStrBody (qc : Char) : List Char → Option (List Char × List Char)
  | [] => none
  | c :: cs =>
    if c = qc then some ([], cs)
    else if c = bslash then
      match cs with
      | e :: cs2 =>
        match unescChar e with
        | some u =>
          match parseStrBody qc cs2 with
          | some (s, rest) => some (u :: s, rest)
          | none => none
        | none => none
      | [] => none
    else
      match parseStrBody qc cs with
      | some (s, rest) => some (c :: s, rest)
      | none => none

mutual
/-- Modelled from the spec: one literal of the define grammar, by first
character — number, quoted string, boolean keyword, list, tuple, or
curly-bracket display (mapping when the first element is followed by a
colon, set otherwise).  `fuel` bounds the nesting depth. -/
def parseVal : Nat → List Char → Option (PyLit × List Char)
  | 0, _ => none
  | _ + 1, [] => none
  | fuel + 1, c :: cs =>
    if c = '-' ∨ c.isDigit = true then parseNum (c :: cs)
    else if c = squote ∨ c = dquote then
      match parseStrBody c cs with
      | some (s, rest) => some (.str s, rest)
      | none => none
    else if c = 'T' then
      match cs with
      | 'r' :: 'u' :: 'e' :: rest => some (.bool true, rest)
      | _ => none
    else if c = 'F' then
      match cs with
      | 'a' :: 'l' :: 's' :: 'e' :: rest => some (.bool false, rest)
      | _ => none
    else if c = '[' then
      match cs with
      | [] => none
      | d :: ds =>
        if d = ']' then some (.list .nil, ds)
        else
          match parseVal fuel (d :: ds) with
          | some (x, r1) =>
            match parseTail fuel ']' r1 with
            | some (xs, r2) => some (.list (.cons x xs), r2)
            | none => none
          | none => none
    else if c = '(' then
      match cs with
      | [] => none
      | d :: ds =>
        if d = ')' then some (.tup .nil, ds)
        else
          match parseVal fuel (d :: ds) with
          | some (x, r1) =>
            match r1 with
            | ',' :: ')' :: rest => some (.tup (.cons x .nil), rest)
            | _ =>
              match parseTail fuel ')' r1 with
              | some (xs, r2) => some (.tup (.cons x xs), r2)
              | none => none
          | none => none
    else if c = lbrace then
      match cs with
      | [] => none
      | d :: ds =>
        if d = rbrace then some (.dict .nil, ds)
        else
          match parseVal fuel (d :: ds) with
          | some (x, r1) =>
            match r1 with
            | ':' :: ' ' :: r2 =>
              match parseVal fuel r2 with
              | some (v, r3) =>
                match parsePairsTail fuel r3 with
                | some (ps, r4) => some (.dict (.cons x v ps), r4)
                | none => none
              | none => none
            | _ =>
              match parseTail fuel rbrace r1 with
              | some (xs, r2) => some (.set (.cons x xs), r2)
              | none => none
          | none => none
    else none
/-- Modelled from the spec: after an element of a bracketed display —
either the closing bracket, or a comma, a space and a further element
(a comma directly before the closing bracket ends a one-element tuple and
is consumed by `parseVal`). -/
def parseTail : Nat → Char → List Char → Option (PyLits × List Char)
  | 0, _, _ => none
  | _ + 1, _, [] => none
  | fuel + 1, closing, c :: cs =>
    if c = closing then some (.nil, cs)
    else if c = ',' then
      match cs with
      | ' ' :: cs2 =>
        match parseVal fuel cs2 with
        | some (x, r1) =>
          match parseTail fuel closing r1 with
          | some (xs, r2) => some (.cons x xs, r2)
          | none => none
        | none => none
      | _ => none
    else none
/-- Modelled from the spec: after a `key: value` pair of a mapping display —
either the closing bracket or a comma, a space and a further pair. -/
def parsePairsTail : Nat → List Char → Option (PyPairs × List Char)
  | 0, _ => none
  | _ + 1, [] => none
  | fuel + 1, c :: cs =>
    if c = rbrace then some (.nil, cs)
    else if c = ',' then
      match cs with
      | ' ' :: cs2 =>
        match parseVal fuel cs2 with
        | some (k, r1) =>
          match r1 with
          | ':' :: ' ' :: r2 =>
            match parseVal fuel r2 with
            | some (v, r3) =>
              match parsePairsTail fuel r3 with
              | some (ps, r4) => some (.cons k v ps, r4)
              | none => none
            | none => none
          | _ => none
        | none => none
      | _ => none
    else none
end

/-- Modelled from the spec: parse a complete define literal; the fuel
`length + 1` exceeds the nesting depth of anything the string can encode. -/
def parseDefine (cs : List Char) : Option PyLit :=
  match parseVal (cs.length + 1) cs with
  | some (v, []) => some v
  | _ => none

/-- The character that may follow a serialized value without disturbing its
parse: not a digit (which a number parse would absorb) and not a point
(which would turn an integer parse into a float parse). -/
def okAfter : List Char → Bool
  | [] => true
  | c :: _ => !c.isDigit && !(c = '.')

theorem okAfter_cons {c : Char} (l : List Char) (h1 : c.isDigit = false)
    (h2 : c ≠ '.') : okAfter (c :: l) = true := by
  simp [okAfter, h1, h2]

theorem okAfter_head_not_digit {rest : List Char} (h : okAfter rest = true) :
    ∀ c, rest.head? = some c → c.isDigit = false := by
  intro c hc
  cases rest with
  | nil => cases hc
  | cons d l =>
    injection hc with hc
    subst hc
    simp [okAfter] at h
    exact h.1

theorem okAfter_head_not_dot {rest : List Char} (h : okAfter rest = true) :
    ∀ c, rest.head? = some c → c ≠ '.' := by
  intro c hc
  cases rest with
  | nil => cases hc
  | cons d l =>
    injection hc with hc
    subst hc
    simp [okAfter] at h
    exact h.2

theorem charToFin_digitChar10 (d : Fin 10) :
    charToFin (digitChar10 d.val) = d := by
  unfold charToFin
  apply Fin.ext
  show valNat (digitChar10 d.val) % 10 = d.val
  rw [valNat_digitChar10 d.isLt]
  exact Nat.mod_eq_of_lt d.isLt

theorem parseNumCore_int (neg : Bool) (k : Nat) (rest : List Char)
    (h : okAfter rest = true) :
    parseNumCore neg (natToChars k ++ rest) =
      some (.int (intOfParts neg k), rest) := by
  obtain ⟨ht, hd⟩ := takeWhile_append_all (natToChars k) rest
    (natToChars_digits k) (okAfter_head_not_digit h)
  unfold parseNumCore
  rw [ht, hd, if_neg (natToChars_ne_nil k)]
  cases rest with
  | nil => rw [charsToNat_natToChars]
  | cons c r2 =>
    have hdot : c ≠ '.' := okAfter_head_not_dot h c rfl
    rw [charsToNat_natToChars]
    show (if c = '.' then _
          else some (PyLit.int (intOfParts neg k), c :: r2)) = _
    rw [if_neg hdot]

theorem parseNumCore_float (neg : Bool) (w : Nat) (frac : List (Fin 10))
    (rest : List Char) (h : okAfter rest = true) :
    parseNumCore neg
        (natToChars w ++ '.' :: (frac.map (fun d => digitChar10 d.val) ++ rest)) =
      some (.float ⟨neg, w, frac⟩, rest) := by
  obtain ⟨ht, hd⟩ := takeWhile_append_all (natToChars w)
      ('.' :: (frac.map (fun d => digitChar10 d.val) ++ rest))
      (natToChars_digits w) (by intro c hc; injection hc with hc; subst hc; rfl)
  obtain ⟨ht2, hd2⟩ := takeWhile_append_all (frac.map (fun d => digitChar10 d.val))
      rest (by
        intro c hc
        obtain ⟨d, _, rfl⟩ := List.mem_map.mp hc
        exact isDigit_digitChar10 d.isLt)
      (okAfter_head_not_digit h)
  unfold parseNumCore
  rw [ht, hd, if_neg (natToChars_ne_nil w)]
  show (if ('.' : Char) = '.' then _ else _) = _
  rw [if_pos rfl, ht2, hd2, charsToNat_natToChars]
  have hmap : (frac.map (fun d => digitChar10 d.val)).map charToFin = frac := by
    rw [List.map_map]
    have : (charToFin ∘ fun d => digitChar10 d.val) = id := by
      funext d
      exact charToFin_digitChar10 d
    rw [this, List.map_id]
  rw [hmap]

theorem digit_ne_minus {c : Char} (h : c.isDigit = true) : c ≠ '-' := by
  intro heq
  subst heq
  exact absurd h (by decide)

theorem parseNum_intChars (n : Int) (rest : List Char) (h : okAfter rest = true) :
    parseNum (intChars n ++ rest) = some (.int n, rest) := by
  unfold intChars
  by_cases hn : n < 0
  · rw [if_pos hn]
    show parseNum (Char.ofNat 45 :: (natToChars n.natAbs ++ rest)) = _
    rw [parseNum, if_pos rfl, parseNumCore_int true n.natAbs rest h]
    have : intOfParts true n.natAbs = n := by
      unfold intOfParts
      rw [if_pos rfl]
      omega
    rw [this]
  · rw [if_neg hn]
    cases hnc : natToChars n.toNat with
    | nil => exact absurd hnc (natToChars_ne_nil _)
    | cons c cs =>
      have hcd : c.isDigit = true := by
        have := natToChars_digits n.toNat
        rw [hnc] at this
        exact this c (List.mem_cons_self _ _)
      show parseNum (c :: (cs ++ rest)) = _
      rw [parseNum, if_neg (digit_ne_minus hcd)]
      have : c :: (cs ++ rest) = natToChars n.toNat ++ rest := by rw [hnc]; rfl
      rw [this, parseNumCore_int false n.toNat rest h]
      have : intOfParts false n.toNat = n := by
        unfold intOfParts
        rw [if_neg (by simp)]
        omega
      rw [this]

theorem parseNum_floatChars (f : PyFloat) (rest : List Char)
    (h : okAfter rest = true) :
    parseNum (floatChars f ++ rest) = some (.float f, rest) := by
  obtain ⟨neg, w, frac⟩ := f
  unfold floatChars
  cases neg with
  | true =>
    show parseNum (Char.ofNat 45 ::
        ((natToChars w ++ Char.ofNat 46 :: frac.map (fun d => digitChar10 d.val)) ++ rest)) = _
    rw [parseNum, if_pos rfl]
    have harr : (natToChars w ++ Char.ofNat 46 :: frac.map (fun d => digitChar10 d.val)) ++ rest
        = natToChars w ++ '.' :: (frac.map (fun d => digitChar10 d.val) ++ rest) := by
      simp
    rw [harr, parseNumCore_float true w frac rest h]
  | false =>
    show parseNum (([] : List Char) ++
        ((natToChars w ++ Char.ofNat 46 :: frac.map (fun d => digitChar10 d.val)) ++ rest)) = _
    rw [List.nil_append]
    cases hnc : natToChars w with
    | nil => exact absurd hnc (natToChars_ne_nil _)
    | cons c cs =>
      have hcd : c.isDigit = true := by
        have := natToChars_digits w
        rw [hnc] at this
        exact this c (List.mem_cons_self _ _)
      show parseNum (c :: (cs ++ Char.ofNat 46 :: frac.map (fun d => digitChar10 d.val) ++ rest)) = _
      rw [parseNum, if_neg (digit_ne_minus hcd)]
      have harr : c :: (cs ++ Char.ofNat 46 :: frac.map (fun d => digitChar10 d.val) ++ rest)
          = natToChars w ++ '.' :: (frac.map (fun d => digitChar10 d.val) ++ rest) := by
        rw [hnc]
        simp
      rw [harr, parseNumCore_float false w frac rest h]

theorem parseStrBody_cons (qc c : Char) (cs : List Char) :
    parseStrBody qc (c :: cs) =
      (if c = qc then some ([], cs)
       else if c = bslash then
         match cs with
         | e :: cs2 =>
           match unescChar e with
           | some u =>
             match parseStrBody qc cs2 with
             | some (s, rest) => some (u :: s, rest)
             | none => none
           | none => none
         | [] => none
       else
         match parseStrBody qc cs with
         | some (s, rest) => some (c :: s, rest)
         | none => none) := by
  cases cs with
  | nil => rfl
  | cons e cs2 => rfl

theorem parseStrBody_round :
    ∀ (s rest : List Char),
      parseStrBody squote (escStr s ++ squote :: rest) = some (s, rest) := by
  intro s
  induction s with
  | nil =>
    intro rest
    show parseStrBody squote (squote :: rest) = some ([], rest)
    rw [parseStrBody_cons, if_pos rfl]
  | cons c cs ih =>
    intro rest
    show parseStrBody squote ((escChar c ++ escStr cs) ++ squote :: rest) = _
    rw [List.append_assoc]
    unfold escChar
    by_cases h1 : c = bslash
    · rw [if_pos h1]
      subst h1
      show parseStrBody squote (bslash :: bslash :: (escStr cs ++ squote :: rest)) = _
      rw [parseStrBody, if_neg (by decide), if_pos rfl]
      show (match unescChar bslash with
            | some u =>
              match parseStrBody squote (escStr cs ++ squote :: rest) with
              | some (s, rest) => some (u :: s, rest)
              | none => none
            | none => none) = _
      rw [ih rest]
      rfl
    · rw [if_neg h1]
      by_cases h2 : c = squote
      · rw [if_pos h2]
        subst h2
        show parseStrBody squote (bslash :: squote :: (escStr cs ++ squote :: rest)) = _
        rw [parseStrBody, if_neg (by decide), if_pos rfl]
        show (match unescChar squote with
              | some u =>
                match parseStrBody squote (escStr cs ++ squote :: rest) with
                | some (s, rest) => some (u :: s, rest)
                | none => none
              | none => none) = _
        rw [ih rest]
        rfl
      · rw [if_neg h2]
        by_cases h3 : c = nlChar
        · rw [if_pos h3]
          subst h3
          show parseStrBody squote
              (bslash :: Char.ofNat 110 :: (escStr cs ++ squote :: rest)) = _
          rw [parseStrBody, if_neg (by decide), if_pos rfl]
          show (match unescChar (Char.ofNat 110) with
                | some u =>
                  match parseStrBody squote (escStr cs ++ squote :: rest) with
                  | some (s, rest) => some (u :: s, rest)
                  | none => none
                | none => none) = _
          rw [ih rest]
          rfl
        · rw [if_neg h3]
          by_cases h4 : c = crChar
          · rw [if_pos h4]
            subst h4
            show parseStrBody squote
                (bslash :: Char.ofNat 114 :: (escStr cs ++ squote :: rest)) = _
            rw [parseStrBody, if_neg (by decide), if_pos rfl]
            show (match unescChar (Char.ofNat 114) with
                  | some u =>
                    match parseStrBody squote (escStr cs ++ squote :: rest) with
                    | some (s, rest) => some (u :: s, rest)
                    | none => none
                  | none => none) = _
            rw [ih rest]
            rfl
          · rw [if_neg h4]
            by_cases h5 : c = tabChar
            · rw [if_pos h5]
              subst h5
              show parseStrBody squote
                  (bslash :: Char.ofNat 116 :: (escStr cs ++ squote :: rest)) = _
              rw [parseStrBody, if_neg (by decide), if_pos rfl]
              show (match unescChar (Char.ofNat 116) with
                    | some u =>
                      match parseStrBody squote (escStr cs ++ squote :: rest) with
                      | some (s, rest) => some (u :: s, rest)
                      | none => none
                    | none => none) = _
              rw [ih rest]
              rfl
            · rw [if_neg h5]
              show parseStrBody squote (c :: (escStr cs ++ squote :: rest)) = _
              rw [parseStrBody_cons, if_neg h2, if_neg h1]
              show (match parseStrBody squote (escStr cs ++ squote :: rest) with
                    | some (s, rest) => some (c :: s, rest)
                    | none => none) = _
              rw [ih rest]

theorem parseVal_cons (fuel : Nat) (c : Char) (cs : List Char) :
    parseVal (fuel + 1) (c :: cs) =
      (if c = '-' ∨ c.isDigit = true then parseNum (c :: cs)
       else if c = squote ∨ c = dquote then
         match parseStrBody c cs with
         | some (s, rest) => some (.str s, rest)
         | none => none
       else if c = 'T' then
         match cs with
         | 'r' :: 'u' :: 'e' :: rest => some (.bool true, rest)
         | _ => none
       else if c = 'F' then
         match cs with
         | 'a' :: 'l' :: 's' :: 'e' :: rest => some (.bool false, rest)
         | _ => none
       else if c = '[' then
         match cs with
         | [] => none
         | d :: ds =>
           if d = ']' then some (.list .nil, ds)
           else
             match parseVal fuel (d :: ds) with
             | some (x, r1) =>
               match parseTail fuel ']' r1 with
               | some (xs, r2) => some (.list (.cons x xs), r2)
               | none => none
             | none => none
       else if c = '(' then
         match cs with
         | [] => none
         | d :: ds =>
           if d = ')' then some (.tup .nil, ds)
           else
             match parseVal fuel (d :: ds) with
             | some (x, r1) =>
               match r1 with
               | ',' :: ')' :: rest => some (.tup (.cons x .nil), rest)
               | _ =>
                 match parseTail fuel ')' r1 with
                 | some (xs, r2) => some (.tup (.cons x xs), r2)
                 | none => none
             | none => none
       else if c = lbrace then
         match cs with
         | [] => none
         | d :: ds =>
           if d = rbrace then some (.dict .nil, ds)
           else
             match parseVal fuel (d :: ds) with
             | some (x, r1) =>
               match r1 with
               | ':' :: ' ' :: r2 =>
                 match parseVal fuel r2 with
                 | some (v, r3) =>
                   match parsePairsTail fuel r3 with
                   | some (ps, r4) => some (.dict (.cons x v ps), r4)
                   | none => none
                 | none => none
               | _ =>
                 match parseTail fuel rbrace r1 with
                 | some (xs, r2) => some (.set (.cons x xs), r2)
                 | none => none
             | none => none
       else none) := by
  cases cs with
  | nil => rfl
  | cons d1 t1 =>
    cases t1 with
    | nil => rfl
    | cons d2 t2 =>
      cases t2 with
      | nil => rfl
      | cons d3 t3 =>
        cases t3 with
        | nil => rfl
        | cons d4 t4 => rfl

theorem parseTail_cons (fuel : Nat) (closing c : Char) (cs : List Char) :
    parseTail (fuel + 1) closing (c :: cs) =
      (if c = closing then some (.nil, cs)
       else if c = ',' then
         match cs with
         | ' ' :: cs2 =>
           match parseVal fuel cs2 with
           | some (x, r1) =>
             match parseTail fuel closing r1 with
             | some (xs, r2) => some (.cons x xs, r2)
             | none => none
           | none => none
         | _ => none
       else none) := by
  cases cs with
  | nil => rfl
  | cons d1 t1 => rfl

theorem parsePairsTail_cons (fuel : Nat) (c : Char) (cs : List Char) :
    parsePairsTail (fuel + 1) (c :: cs) =
      (if c = rbrace then some (.nil, cs)
       else if c = ',' then
         match cs with
         | ' ' :: cs2 =>
           match parseVal fuel cs2 with
           | some (k, r1) =>
             match r1 with
             | ':' :: ' ' :: r2 =>
               match parseVal fuel r2 with
               | some (v, r3) =>
                 match parsePairsTail fuel r3 with
                 | some (ps, r4) => some (.cons k v ps, r4)
                 | none => none
               | none => none
             | _ => none
           | none => none
         | _ => none
       else none) := by
  cases cs with
  | nil => rfl
  | cons d1 t1 => rfl

/-- The serialized text after the first element of a bracketed display:
comma-space separated further elements, then the closing bracket. -/
def tailText : PyLits → Char → List Char
  | .nil, closing => [closing]
  | .cons x xs, closing => ',' :: ' ' :: (serV x ++ tailText xs closing)

/-- The serialized text after the first pair of a mapping display. -/
def pairTailText : PyPairs → List Char
  | .nil => [rbrace]
  | .cons k v ps => ',' :: ' ' :: (serV k ++ ':' :: ' ' :: (serV v ++ pairTailText ps))

theorem serItems_split :
    ∀ (xs : PyLits) (x : PyLit) (c : Char),
      serItems (.cons x xs) ++ [c] = serV x ++ tailText xs c
  | .nil, x, c => by rw [serItems, tailText]
  | .cons y ys, x, c => by
    rw [serItems, tailText, ← serItems_split ys y c]
    simp

theorem serPairs_split :
    ∀ (ps : PyPairs) (k v : PyLit),
      serPairs (.cons k v ps) ++ [rbrace] =
        serV k ++ ':' :: ' ' :: (serV v ++ pairTailText ps)
  | .nil, k, v => by rw [serPairs, pairTailText]; simp
  | .cons k2 v2 ps2, k, v => by
    rw [serPairs, pairTailText, ← serPairs_split ps2 k2 v2]
    simp

theorem okAfter_tailText (xs : PyLits) (closing : Char) (rest : List Char)
    (hcl : closing = ']' ∨ closing = ')' ∨ closing = rbrace) :
    okAfter (tailText xs closing ++ rest) = true := by
  cases xs with
  | nil =>
    rw [tailText]
    rcases hcl with rfl | rfl | rfl
    · exact okAfter_cons _ (by decide) (by decide)
    · exact okAfter_cons _ (by decide) (by decide)
    · exact okAfter_cons _ (by decide) (by decide)
  | cons x xs2 =>
    rw [tailText]
    exact okAfter_cons _ (by decide) (by decide)

theorem okAfter_pairTailText (ps : PyPairs) (rest : List Char) :
    okAfter (pairTailText ps ++ rest) = true := by
  cases ps with
  | nil =>
    rw [pairTailText]
    exact okAfter_cons _ (by decide) (by decide)
  | cons k v ps2 =>
    rw [pairTailText]
    exact okAfter_cons _ (by decide) (by decide)

/-- The characters that can start a serialized value. -/
def startChar (c : Char) : Bool :=
  c.isDigit || c = '-' || c = squote || c = '[' || c = '(' || c = lbrace ||
    c = 'T' || c = 'F' || c = 's'

theorem startChar_ne_rbrack {c : Char} (h : startChar c = true) : c ≠ ']' := by
  intro heq
  subst heq
  exact absurd h (by decide)

theorem startChar_ne_rparen {c : Char} (h : startChar c = true) : c ≠ ')' := by
  intro heq
  subst heq
  exact absurd h (by decide)

theorem startChar_ne_rbrace {c : Char} (h : startChar c = true) : c ≠ rbrace := by
  intro heq
  subst heq
  exact absurd h (by decide)

theorem natToChars_head :
    ∀ (n : Nat), ∃ c cs, natToChars n = c :: cs ∧ startChar c = true := by
  intro n
  cases hnc : natToChars n with
  | nil => exact absurd hnc (natToChars_ne_nil n)
  | cons c cs =>
    have hc : c.isDigit = true := by
      have := natToChars_digits n
      rw [hnc] at this
      exact this c (List.mem_cons_self _ _)
    exact ⟨c, cs, rfl, by simp [startChar, hc]⟩

theorem serV_head (v : PyLit) :
    ∃ c cs, serV v = c :: cs ∧ startChar c = true := by
  cases v with
  | int n =>
    rw [serV]
    unfold intChars
    by_cases hn : n < 0
    · rw [if_pos hn]
      exact ⟨Char.ofNat 45, _, rfl, by decide⟩
    · rw [if_neg hn]
      exact natToChars_head n.toNat
  | float f =>
    rw [serV]
    unfold floatChars
    cases hneg : f.neg with
    | true =>
      rw [if_pos rfl]
      exact ⟨Char.ofNat 45, _, rfl, by decide⟩
    | false =>
      rw [if_neg (by simp)]
      obtain ⟨c, cs, hc, hs⟩ := natToChars_head f.whole
      rw [List.nil_append, hc]
      exact ⟨c, _, rfl, hs⟩
  | bool b =>
    cases b with
    | true => exact ⟨'T', _, rfl, by decide⟩
    | false => exact ⟨'F', _, rfl, by decide⟩
  | str s => exact ⟨squote, _, rfl, by decide⟩
  | list xs => exact ⟨'[', _, rfl, by decide⟩
  | set xs =>
    cases xs with
    | nil => exact ⟨'s', _, rfl, by decide⟩
    | cons x xs2 => exact ⟨lbrace, _, rfl, by decide⟩
  | dict ps => exact ⟨lbrace, _, rfl, by decide⟩
  | tup xs =>
    cases xs with
    | nil => exact ⟨'(', _, rfl, by decide⟩
    | cons x xs2 =>
      cases xs2 with
      | nil => exact ⟨'(', _, rfl, by decide⟩
      | cons y ys => exact ⟨'(', _, rfl, by decide⟩

theorem intChars_head (n : Int) :
    ∃ c cs, intChars n = c :: cs ∧ (c = '-' ∨ c.isDigit = true) := by
  unfold intChars
  by_cases hn : n < 0
  · rw [if_pos hn]
    exact ⟨Char.ofNat 45, _, rfl, Or.inl rfl⟩
  · rw [if_neg hn]
    cases hnc : natToChars n.toNat with
    | nil => exact absurd hnc (natToChars_ne_nil _)
    | cons c cs =>
      refine ⟨c, cs, rfl, Or.inr ?_⟩
      have := natToChars_digits n.toNat
      rw [hnc] at this
      exact this c (List.mem_cons_self _ _)

theorem floatChars_head (f : PyFloat) :
    ∃ c cs, floatChars f = c :: cs ∧ (c = '-' ∨ c.isDigit = true) := by
  unfold floatChars
  cases f.neg with
  | true => exact ⟨Char.ofNat 45, _, rfl, Or.inl rfl⟩
  | false =>
    rw [if_neg (by simp), List.nil_append]
    cases hnc : natToChars f.whole with
    | nil => exact absurd hnc (natToChars_ne_nil _)
    | cons c cs =>
      refine ⟨c, _, rfl, Or.inr ?_⟩
      have := natToChars_digits f.whole
      rw [hnc] at this
      exact this c (List.mem_cons_self _ _)

theorem one_le_sizeV (v : PyLit) : 1 ≤ sizeV v := by
  cases v with
  | int n => exact le_refl 1
  | float f => exact le_refl 1
  | bool b => exact le_refl 1
  | str s => exact le_refl 1
  | list xs => show 1 ≤ sizeL xs + 1; omega
  | set xs => show 1 ≤ sizeL xs + 1; omega
  | dict ps => show 1 ≤ sizeP ps + 1; omega
  | tup xs => show 1 ≤ sizeL xs + 1; omega

mutual
theorem sizeV_le_len : ∀ v : PyLit, sizeV v ≤ (serV v).length
  | .int n => by
    obtain ⟨c, cs, hc, _⟩ := intChars_head n
    show 1 ≤ (intChars n).length
    rw [hc]
    simp
  | .float f => by
    obtain ⟨c, cs, hc, _⟩ := floatChars_head f
    show 1 ≤ (floatChars f).length
    rw [hc]
    simp
  | .bool b => by cases b <;> simp [sizeV, serV]
  | .str s => by
    show 1 ≤ (squote :: escStr s ++ [squote]).length
    simp
  | .list xs => by
    have h := sizeL_le_len xs
    show sizeL xs + 1 ≤ ('[' :: serItems xs ++ [']']).length
    simp
    omega
  | .set .nil => by
    show 1 ≤ (['s', 'e', 't', '(', ')'] : List Char).length
    simp
  | .set (.cons x xs) => by
    have h := sizeL_le_len (.cons x xs)
    show sizeL (.cons x xs) + 1 ≤ (lbrace :: serItems (.cons x xs) ++ [rbrace]).length
    simp
    simp at h
    omega
  | .dict ps => by
    have h := sizeP_le_len ps
    show sizeP ps + 1 ≤ (lbrace :: serPairs ps ++ [rbrace]).length
    simp
    omega
  | .tup .nil => by
    show 1 ≤ (['(', ')'] : List Char).length
    simp
  | .tup (.cons x .nil) => by
    have h := sizeV_le_len x
    show sizeV x + 2 ≤ ('(' :: serV x ++ [',', ')']).length
    simp
    omega
  | .tup (.cons x (.cons y ys)) => by
    have h := sizeL_le_len (.cons x (.cons y ys))
    show sizeL (.cons x (.cons y ys)) + 1 ≤
      ('(' :: serItems (.cons x (.cons y ys)) ++ [')']).length
    simp
    simp at h
    omega
theorem sizeL_le_len : ∀ xs : PyLits, sizeL xs ≤ (serItems xs).length + 1
  | .nil => by simp [sizeL, serItems]
  | .cons x .nil => by
    have h := sizeV_le_len x
    show sizeV x + 0 + 1 ≤ (serV x).length + 1
    omega
  | .cons x (.cons y ys) => by
    have h1 := sizeV_le_len x
    have h2 := sizeL_le_len (.cons y ys)
    show sizeV x + sizeL (.cons y ys) + 1 ≤
      (serV x ++ ',' :: ' ' :: serItems (.cons y ys)).length + 1
    simp
    simp at h2
    omega
theorem sizeP_le_len : ∀ ps : PyPairs, sizeP ps ≤ (serPairs ps).length + 1
  | .nil => by simp [sizeP, serPairs]
  | .cons k v .nil => by
    have h1 := sizeV_le_len k
    have h2 := sizeV_le_len v
    show sizeV k + sizeV v + 0 + 1 ≤ (serV k ++ ':' :: ' ' :: serV v).length + 1
    simp
    omega
  | .cons k v (.cons k2 v2 ps2) => by
    have h1 := sizeV_le_len k
    have h2 := sizeV_le_len v
    have h3 := sizeP_le_len (.cons k2 v2 ps2)
    show sizeV k + sizeV v + sizeP (.cons k2 v2 ps2) + 1 ≤
      (serV k ++ ':' :: ' ' :: serV v ++ ',' :: ' ' :: serPairs (.cons k2 v2 ps2)).length + 1
    simp
    simp at h3
    omega
end

theorem parse_round_all :
    ∀ fuel : Nat,
      (∀ (v : PyLit) (rest : List Char), noESetV v = true → sizeV v ≤ fuel →
        okAfter rest = true → parseVal fuel (serV v ++ rest) = some (v, rest)) ∧
      (∀ (closing : Char) (xs : PyLits) (rest : List Char),
        (closing = ']' ∨ closing = ')' ∨ closing = rbrace) →
        noESetL xs = true → sizeL xs < fuel → okAfter rest = true →
        parseTail fuel closing (tailText xs closing ++ rest) = some (xs, rest)) ∧
      (∀ (ps : PyPairs) (rest : List Char), noESetP ps = true → sizeP ps < fuel →
        okAfter rest = true →
        parsePairsTail fuel (pairTailText ps ++ rest) = some (ps, rest)) := by
  intro fuel
  induction fuel with
  | zero =>
    refine ⟨?_, ?_, ?_⟩
    · intro v rest _ hsz _
      have := one_le_sizeV v
      omega
    · intro closing xs rest _ _ hsz _
      omega
    · intro ps rest _ hsz _
      omega
  | succ fuel ih =>
    obtain ⟨ihP, ihQ, ihR⟩ := ih
    refine ⟨?_, ?_, ?_⟩
    · -- values
      intro v rest hne hsz hok
      cases v with
      | int n =>
        obtain ⟨c, cs', hc, hd⟩ := intChars_head n
        show parseVal (fuel + 1) (intChars n ++ rest) = some (.int n, rest)
        rw [hc]
        show parseVal (fuel + 1) (c :: (cs' ++ rest)) = some (.int n, rest)
        rw [parseVal_cons, if_pos hd]
        rw [show c :: (cs' ++ rest) = intChars n ++ rest from by rw [hc]; rfl]
        exact parseNum_intChars n rest hok
      | float f =>
        obtain ⟨c, cs', hc, hd⟩ := floatChars_head f
        show parseVal (fuel + 1) (floatChars f ++ rest) = some (.float f, rest)
        rw [hc]
        show parseVal (fuel + 1) (c :: (cs' ++ rest)) = some (.float f, rest)
        rw [parseVal_cons, if_pos hd]
        rw [show c :: (cs' ++ rest) = floatChars f ++ rest from by rw [hc]; rfl]
        exact parseNum_floatChars f rest hok
      | bool b =>
        cases b with
        | true =>
          show parseVal (fuel + 1) ('T' :: ('r' :: 'u' :: 'e' :: rest)) =
            some (.bool true, rest)
          rw [parseVal_cons, if_neg (by decide), if_neg (by decide), if_pos rfl]
          rfl
        | false =>
          show parseVal (fuel + 1) ('F' :: ('a' :: 'l' :: 's' :: 'e' :: rest)) =
            some (.bool false, rest)
          rw [parseVal_cons, if_neg (by decide), if_neg (by decide),
              if_neg (by decide), if_pos rfl]
          rfl
      | str s =>
        have hshape : serV (.str s) ++ rest = squote :: (escStr s ++ (squote :: rest)) := by
          show (squote :: (escStr s ++ [squote])) ++ rest = _
          simp
        rw [hshape, parseVal_cons, if_neg (by decide), if_pos (Or.inl rfl),
            parseStrBody_round]
      | list xs =>
        cases xs with
        | nil =>
          show parseVal (fuel + 1) ('[' :: (']' :: rest)) = some (.list .nil, rest)
          rw [parseVal_cons, if_neg (by decide), if_neg (by decide),
              if_neg (by decide), if_neg (by decide), if_pos rfl]
          rfl
        | cons x xs2 =>
          have hnn : noESetV x = true ∧ noESetL xs2 = true := by
            have h0 : (noESetV x && noESetL xs2) = true := hne
            exact (Bool.and_eq_true _ _).mp h0
          have hsp : sizeV x ≤ fuel ∧ sizeL xs2 < fuel := by
            have h0 : sizeL (PyLits.cons x xs2) + 1 ≤ fuel + 1 := hsz
            rw [sizeL] at h0
            omega
          obtain ⟨c, cs', hc, hstart⟩ := serV_head x
          have h1 : parseVal fuel (c :: (cs' ++ (tailText xs2 ']' ++ rest))) =
              some (x, tailText xs2 ']' ++ rest) := by
            rw [show c :: (cs' ++ (tailText xs2 ']' ++ rest)) =
                serV x ++ (tailText xs2 ']' ++ rest) from by rw [hc]; rfl]
            exact ihP x _ hnn.1 hsp.1 (okAfter_tailText xs2 ']' rest (Or.inl rfl))
          have h2 : parseTail fuel ']' (tailText xs2 ']' ++ rest) = some (xs2, rest) :=
            ihQ ']' xs2 rest (Or.inl rfl) hnn.2 hsp.2 hok
          have hshape : serV (.list (.cons x xs2)) ++ rest =
              '[' :: (c :: (cs' ++ (tailText xs2 ']' ++ rest))) := by
            show '[' :: ((serItems (.cons x xs2) ++ [']']) ++ rest) = _
            rw [serItems_split xs2 x ']', List.append_assoc, hc]
            rfl
          rw [hshape, parseVal_cons, if_neg (by decide), if_neg (by decide),
              if_neg (by decide), if_neg (by decide), if_pos rfl]
          show (if c = ']' then some (PyLit.list .nil, cs' ++ (tailText xs2 ']' ++ rest))
                else
                  match parseVal fuel (c :: (cs' ++ (tailText xs2 ']' ++ rest))) with
                  | some (x, r1) =>
                    match parseTail fuel ']' r1 with
                    | some (xs, r2) => some (PyLit.list (.cons x xs), r2)
                    | none => none
                  | none => none) = some (PyLit.list (.cons x xs2), rest)
          rw [if_neg (startChar_ne_rbrack hstart)]
          simp only [h1, h2]
      | set xs =>
        cases xs with
        | nil => exact absurd hne (by decide)
        | cons x xs2 =>
          have hnn : noESetV x = true ∧ noESetL xs2 = true := by
            have h0 : (noESetV x && noESetL xs2) = true := hne
            exact (Bool.and_eq_true _ _).mp h0
          have hsp : sizeV x ≤ fuel ∧ sizeL xs2 < fuel := by
            have h0 : sizeL (PyLits.cons x xs2) + 1 ≤ fuel + 1 := hsz
            rw [sizeL] at h0
            omega
          obtain ⟨c, cs', hc, hstart⟩ := serV_head x
          have h1 : parseVal fuel (c :: (cs' ++ (tailText xs2 rbrace ++ rest))) =
              some (x, tailText xs2 rbrace ++ rest) := by
            rw [show c :: (cs' ++ (tailText xs2 rbrace ++ rest)) =
                serV x ++ (tailText xs2 rbrace ++ rest) from by rw [hc]; rfl]
            exact ihP x _ hnn.1 hsp.1
              (okAfter_tailText xs2 rbrace rest (Or.inr (Or.inr rfl)))
          have h2 : parseTail fuel rbrace (tailText xs2 rbrace ++ rest) =
              some (xs2, rest) :=
            ihQ rbrace xs2 rest (Or.inr (Or.inr rfl)) hnn.2 hsp.2 hok
          have hshape : serV (.set (.cons x xs2)) ++ rest =
              lbrace :: (c :: (cs' ++ (tailText xs2 rbrace ++ rest))) := by
            show lbrace :: ((serItems (.cons x xs2) ++ [rbrace]) ++ rest) = _
            rw [serItems_split xs2 x rbrace, List.append_assoc, hc]
            rfl
          rw [hshape, parseVal_cons, if_neg (by decide), if_neg (by decide),
              if_neg (by decide), if_neg (by decide), if_neg (by decide),
              if_neg (by decide), if_pos rfl]
          show (if c = rbrace then
                  some (PyLit.dict .nil, cs' ++ (tailText xs2 rbrace ++ rest))
                else
                  match parseVal fuel (c :: (cs' ++ (tailText xs2 rbrace ++ rest))) with
                  | some (x, r1) =>
                    match r1 with
                    | ':' :: ' ' :: r2 =>
                      match parseVal fuel r2 with
                      | some (v, r3) =>
                        match parsePairsTail fuel r3 with
                        | some (ps, r4) => some (PyLit.dict (.cons x v ps), r4)
                        | none => none
                      | none => none
                    | _ =>
                      match parseTail fuel rbrace r1 with
                      | some (xs, r2) => some (PyLit.set (.cons x xs), r2)
                      | none => none
                  | none => none) = some (PyLit.set (.cons x xs2), rest)
          rw [if_neg (startChar_ne_rbrace hstart)]
          cases xs2 with
          | nil =>
            have h1a : parseVal fuel (c :: (cs' ++ (tailText PyLits.nil rbrace ++ rest))) =
                some (x, rbrace :: rest) := h1
            have h2a : parseTail fuel rbrace (rbrace :: rest) =
                some (PyLits.nil, rest) := h2
            simp only [h1a, h2a]
            rfl
          | cons y ys =>
            have h1a : parseVal fuel
                (c :: (cs' ++ (tailText (PyLits.cons y ys) rbrace ++ rest))) =
                some (x, ',' :: (' ' :: ((serV y ++ tailText ys rbrace) ++ rest))) := h1
            have h2a : parseTail fuel rbrace
                (',' :: (' ' :: ((serV y ++ tailText ys rbrace) ++ rest))) =
                some (PyLits.cons y ys, rest) := h2
            simp only [h1a, h2a]
            rfl
      | dict ps =>
        cases ps with
        | nil =>
          show parseVal (fuel + 1) (lbrace :: (rbrace :: rest)) = some (.dict .nil, rest)
          rw [parseVal_cons, if_neg (by decide), if_neg (by decide),
              if_neg (by decide), if_neg (by decide), if_neg (by decide),
              if_neg (by decide), if_pos rfl]
          show (if rbrace = rbrace then some (PyLit.dict .nil, rest) else _) =
            some (PyLit.dict .nil, rest)
          rw [if_pos rfl]
        | cons k v ps2 =>
          have hnn : noESetV k = true ∧ noESetV v = true ∧ noESetP ps2 = true := by
            have h0 : ((noESetV k && noESetV v) && noESetP ps2) = true := hne
            simp only [Bool.and_eq_true] at h0
            exact ⟨h0.1.1, h0.1.2, h0.2⟩
          have hsp : sizeV k ≤ fuel ∧ sizeV v ≤ fuel ∧ sizeP ps2 < fuel := by
            have h0 : sizeP (PyPairs.cons k v ps2) + 1 ≤ fuel + 1 := hsz
            rw [sizeP] at h0
            omega
          obtain ⟨c, cs', hc, hstart⟩ := serV_head k
          have h1 : parseVal fuel
              (c :: (cs' ++ (':' :: (' ' :: (serV v ++ (pairTailText ps2 ++ rest)))))) =
              some (k, ':' :: (' ' :: (serV v ++ (pairTailText ps2 ++ rest)))) := by
            rw [show c :: (cs' ++ (':' :: (' ' :: (serV v ++ (pairTailText ps2 ++ rest))))) =
                serV k ++ (':' :: (' ' :: (serV v ++ (pairTailText ps2 ++ rest))))
                from by rw [hc]; rfl]
            exact ihP k _ hnn.1 hsp.1 (okAfter_cons _ (by decide) (by decide))
          have h2 : parseVal fuel (serV v ++ (pairTailText ps2 ++ rest)) =
              some (v, pairTailText ps2 ++ rest) :=
            ihP v _ hnn.2.1 hsp.2.1 (okAfter_pairTailText ps2 rest)
          have h3 : parsePairsTail fuel (pairTailText ps2 ++ rest) =
              some (ps2, rest) :=
            ihR ps2 rest hnn.2.2 hsp.2.2 hok
          have hshape : serV (.dict (.cons k v ps2)) ++ rest =
              lbrace :: (c :: (cs' ++ (':' :: (' ' ::
                (serV v ++ (pairTailText ps2 ++ rest)))))) := by
            show lbrace :: ((serPairs (.cons k v ps2) ++ [rbrace]) ++ rest) = _
            rw [serPairs_split ps2 k v]
            rw [show (serV k ++ ':' :: ' ' :: (serV v ++ pairTailText ps2)) ++ rest =
                serV k ++ (':' :: (' ' :: ((serV v ++ pairTailText ps2) ++ rest)))
                from by simp]
            rw [List.append_assoc, hc]
            rfl
          rw [hshape, parseVal_cons, if_neg (by decide), if_neg (by decide),
              if_neg (by decide), if_neg (by decide), if_neg (by decide),
              if_neg (by decide), if_pos rfl]
          show (if c = rbrace then
                  some (PyLit.dict .nil,
                    cs' ++ (':' :: (' ' :: (serV v ++ (pairTailText ps2 ++ rest)))))
                else
                  match parseVal fuel
                      (c :: (cs' ++ (':' :: (' ' ::
                        (serV v ++ (pairTailText ps2 ++ rest)))))) with
                  | some (x, r1) =>
                    match r1 with
                    | ':' :: ' ' :: r2 =>
                      match parseVal fuel r2 with
                      | some (v, r3) =>
                        match parsePairsTail fuel r3 with
                        | some (ps, r4) => some (PyLit.dict (.cons x v ps), r4)
                        | none => none
                      | none => none
                    | _ =>
                      match parseTail fuel rbrace r1 with
                      | some (xs, r2) => some (PyLit.set (.cons x xs), r2)
                      | none => none
                  | none => none) = some (PyLit.dict (.cons k v ps2), rest)
          rw [if_neg (startChar_ne_rbrace hstart)]
          simp only [h1, h2, h3]
      | tup xs =>
        cases xs with
        | nil =>
          show parseVal (fuel + 1) ('(' :: (')' :: rest)) = some (.tup .nil, rest)
          rw [parseVal_cons, if_neg (by decide), if_neg (by decide),
              if_neg (by decide), if_neg (by decide), if_neg (by decide),
              if_pos rfl]
          rfl
        | cons x xs2 =>
          cases xs2 with
          | nil =>
            have hn1 : noESetV x = true := by
              have h0 : (noESetV x && noESetL PyLits.nil) = true := hne
              simpa using ((Bool.and_eq_true _ _).mp h0).1
            have hs1 : sizeV x ≤ fuel := by
              have h0 : sizeL (PyLits.cons x PyLits.nil) + 1 ≤ fuel + 1 := hsz
              rw [sizeL] at h0
              omega
            obtain ⟨c, cs', hc, hstart⟩ := serV_head x
            have h1 : parseVal fuel (c :: (cs' ++ (',' :: (')' :: rest)))) =
                some (x, ',' :: (')' :: rest)) := by
              rw [show c :: (cs' ++ (',' :: (')' :: rest))) =
                  serV x ++ (',' :: (')' :: rest)) from by rw [hc]; rfl]
              exact ihP x _ hn1 hs1 (okAfter_cons _ (by decide) (by decide))
            have hshape : serV (.tup (.cons x .nil)) ++ rest =
                '(' :: (c :: (cs' ++ (',' :: (')' :: rest)))) := by
              show '(' :: ((serV x ++ [',', ')']) ++ rest) = _
              rw [List.append_assoc, hc]
              rfl
            rw [hshape, parseVal_cons, if_neg (by decide), if_neg (by decide),
                if_neg (by decide), if_neg (by decide), if_neg (by decide),
                if_pos rfl]
            show (if c = ')' then some (PyLit.tup .nil, cs' ++ (',' :: (')' :: rest)))
                  else
                    match parseVal fuel (c :: (cs' ++ (',' :: (')' :: rest)))) with
                    | some (x, r1) =>
                      match r1 with
                      | ',' :: ')' :: rest => some (PyLit.tup (.cons x .nil), rest)
                      | _ =>
                        match parseTail fuel ')' r1 with
                        | some (xs, r2) => some (PyLit.tup (.cons x xs), r2)
                        | none => none
                    | none => none) = some (PyLit.tup (.cons x .nil), rest)
            rw [if_neg (startChar_ne_rparen hstart)]
            simp only [h1]
          | cons y ys =>
            have hnn : noESetV x = true ∧ noESetL (PyLits.cons y ys) = true := by
              have h0 : (noESetV x && noESetL (PyLits.cons y ys)) = true := hne
              exact (Bool.and_eq_true _ _).mp h0
            have hsp : sizeV x ≤ fuel ∧ sizeL (PyLits.cons y ys) < fuel := by
              have h0 : sizeL (PyLits.cons x (PyLits.cons y ys)) + 1 ≤ fuel + 1 := hsz
              rw [sizeL] at h0
              omega
            obtain ⟨c, cs', hc, hstart⟩ := serV_head x
            have h1 : parseVal fuel
                (c :: (cs' ++ (tailText (PyLits.cons y ys) ')' ++ rest))) =
                some (x, ',' :: (' ' :: ((serV y ++ tailText ys ')') ++ rest))) := by
              rw [show c :: (cs' ++ (tailText (PyLits.cons y ys) ')' ++ rest)) =
                  serV x ++ (tailText (PyLits.cons y ys) ')' ++ rest)
                  from by rw [hc]; rfl]
              exact ihP x _ hnn.1 hsp.1
                (okAfter_tailText (PyLits.cons y ys) ')' rest (Or.inr (Or.inl rfl)))
            have h2 : parseTail fuel ')'
                (',' :: (' ' :: ((serV y ++ tailText ys ')') ++ rest))) =
                some (PyLits.cons y ys, rest) :=
              ihQ ')' (PyLits.cons y ys) rest (Or.inr (Or.inl rfl)) hnn.2 hsp.2 hok
            have hshape : serV (.tup (.cons x (.cons y ys))) ++ rest =
                '(' :: (c :: (cs' ++ (tailText (PyLits.cons y ys) ')' ++ rest))) := by
              show '(' :: ((serItems (.cons x (.cons y ys)) ++ [')']) ++ rest) = _
              rw [serItems_split (PyLits.cons y ys) x ')', List.append_assoc, hc]
              rfl
            rw [hshape, parseVal_cons, if_neg (by decide), if_neg (by decide),
                if_neg (by decide), if_neg (by decide), if_neg (by decide),
                if_pos rfl]
            show (if c = ')' then
                    some (PyLit.tup .nil,
                      cs' ++ (tailText (PyLits.cons y ys) ')' ++ rest))
                  else
                    match parseVal fuel
                        (c :: (cs' ++ (tailText (PyLits.cons y ys) ')' ++ rest))) with
                    | some (x, r1) =>
                      match r1 with
                      | ',' :: ')' :: rest => some (PyLit.tup (.cons x .nil), rest)
                      | _ =>
                        match parseTail fuel ')' r1 with
                        | some (xs, r2) => some (PyLit.tup (.cons x xs), r2)
                        | none => none
                    | none => none) = some (PyLit.tup (.cons x (.cons y ys)), rest)
            rw [if_neg (startChar_ne_rparen hstart)]
            simp only [h1, h2]
            rfl
    · -- element tails
      intro closing xs rest hcl hne hsz hok
      cases xs with
      | nil =>
        show parseTail (fuel + 1) closing (closing :: rest) = some (.nil, rest)
        rw [parseTail_cons, if_pos rfl]
      | cons x xs2 =>
        have hnn : noESetV x = true ∧ noESetL xs2 = true := by
          have h0 : (noESetV x && noESetL xs2) = true := hne
          exact (Bool.and_eq_true _ _).mp h0
        have hsp : sizeV x ≤ fuel ∧ sizeL xs2 < fuel := by
          have h0 : sizeL (PyLits.cons x xs2) < fuel + 1 := hsz
          rw [sizeL] at h0
          omega
        have h1 : parseVal fuel (serV x ++ (tailText xs2 closing ++ rest)) =
            some (x, tailText xs2 closing ++ rest) :=
          ihP x _ hnn.1 hsp.1 (okAfter_tailText xs2 closing rest hcl)
        have h2 : parseTail fuel closing (tailText xs2 closing ++ rest) =
            some (xs2, rest) :=
          ihQ closing xs2 rest hcl hnn.2 hsp.2 hok
        have hshape : tailText (PyLits.cons x xs2) closing ++ rest =
            ',' :: (' ' :: (serV x ++ (tailText xs2 closing ++ rest))) := by
          show ',' :: (' ' :: ((serV x ++ tailText xs2 closing) ++ rest)) = _
          rw [List.append_assoc]
        have hccl : ¬ (',' : Char) = closing := by
          rcases hcl with rfl | rfl | rfl <;> decide
        rw [hshape, parseTail_cons, if_neg hccl, if_pos rfl]
        simp only [h1, h2]
    · -- pair tails
      intro ps rest hne hsz hok
      cases ps with
      | nil =>
        show parsePairsTail (fuel + 1) (rbrace :: rest) = some (.nil, rest)
        rw [parsePairsTail_cons, if_pos rfl]
      | cons k v ps2 =>
        have hnn : noESetV k = true ∧ noESetV v = true ∧ noESetP ps2 = true := by
          have h0 : ((noESetV k && noESetV v) && noESetP ps2) = true := hne
          simp only [Bool.and_eq_true] at h0
          exact ⟨h0.1.1, h0.1.2, h0.2⟩
        have hsp : sizeV k ≤ fuel ∧ sizeV v ≤ fuel ∧ sizeP ps2 < fuel := by
          have h0 : sizeP (PyPairs.cons k v ps2) < fuel + 1 := hsz
          rw [sizeP] at h0
          omega
        have h1 : parseVal fuel
            (serV k ++ (':' :: (' ' :: (serV v ++ (pairTailText ps2 ++ rest))))) =
            some (k, ':' :: (' ' :: (serV v ++ (pairTailText ps2 ++ rest)))) :=
          ihP k _ hnn.1 hsp.1 (okAfter_cons _ (by decide) (by decide))
        have h2 : parseVal fuel (serV v ++ (pairTailText ps2 ++ rest)) =
            some (v, pairTailText ps2 ++ rest) :=
          ihP v _ hnn.2.1 hsp.2.1 (okAfter_pairTailText ps2 rest)
        have h3 : parsePairsTail fuel (pairTailText ps2 ++ rest) = some (ps2, rest) :=
          ihR ps2 rest hnn.2.2 hsp.2.2 hok
        have hshape : pairTailText (PyPairs.cons k v ps2) ++ rest =
            ',' :: (' ' :: (serV k ++ (':' :: (' ' ::
              (serV v ++ (pairTailText ps2 ++ rest)))))) := by
          show ',' :: (' ' :: ((serV k ++ ':' :: ' ' ::
            (serV v ++ pairTailText ps2)) ++ rest)) = _
          simp
        rw [hshape, parsePairsTail_cons, if_neg (by decide), if_pos rfl]
        simp only [h1, h2, h3]

/-- C9 counterexample: the empty set is a supported Define Store value, but
Python `repr` serializes it as `set()` — a call, not a literal of the
define grammar — so parsing its serialized form fails instead of returning
the value. -/
theorem c9_counterexample :
    serV (.set .nil) = ['s', 'e', 't', '(', ')'] ∧
    parseDefine (serV (.set .nil)) = none :=
  ⟨rfl, rfl⟩

/-- C9 amended: for every supported Define Store value (integer, float,
boolean, string, sequence, set, mapping, tuple) that contains no empty set,
parsing the serialized form written across the subpake boundary yields the
value back: `parse (serialize v) = v`. -/
theorem c9_parse_serialize_round (v : PyLit) (h : noESetV v = true) :
    parseDefine (serV v) = some v := by
  have hfuel : sizeV v ≤ (serV v).length + 1 := by
    have := sizeV_le_len v
    omega
  have hmain := (parse_round_all ((serV v).length + 1)).1 v [] h hfuel rfl
  rw [List.append_nil] at hmain
  unfold parseDefine
  rw [hmain]

/-- C9 witness: a nested value exercising every kind — a list holding an
integer, a string, a mapping from an integer to a pair of a boolean and a
negative float, and a one-element set. -/
theorem c9_parse_serialize_round_witness :
    parseDefine (serV (.list (.cons (.int (-17))
        (.cons (.str ['p', 'k'])
          (.cons (.dict (.cons (.int 2)
              (.tup (.cons (.bool true) (.cons (.float ⟨true, 3, ⟨5, by omega⟩ :: []⟩) .nil)))
              .nil))
            (.cons (.set (.cons (.int 7) .nil)) .nil)))))) =
      some (.list (.cons (.int (-17))
        (.cons (.str ['p', 'k'])
          (.cons (.dict (.cons (.int 2)
              (.tup (.cons (.bool true) (.cons (.float ⟨true, 3, ⟨5, by omega⟩ :: []⟩) .nil)))
              .nil))
            (.cons (.set (.cons (.int 7) .nil)) .nil))))) :=
  c9_parse_serialize_round _ rfl
